import Mathlib

/-!
# Verification of the jfxr-rs sound-effect synthesis core

A shallow embedding of the `jfxr-rs` repository (files `src/sound.rs`,
`src/parameter.rs`, `src/oscillator.rs`, `src/synth.rs`) together with proofs
about the embedded definitions.

Numeric model: the Rust code computes on `f64`.  The embedding is parametric
over a linear ordered field `α` (instantiated at `ℚ` for concrete witnesses
and available at `ℝ`), with the transcendental library functions (`sin`,
`cos`, `tan`, `sqrt`, `powf`, the constant `PI`) supplied as an explicit
record `TransOps α` of uninterpreted operations: none of the verified
properties depends on their values.  Machine integers (`u32`, `usize`, `i32`)
are modelled as `ℕ`/`ℤ` with explicit `% 2^w` wrap-around where the source
relies on wrapping.
-/

set_option linter.unusedSectionVars false

namespace Jfxr

/-- The transcendental `f64` operations used by the source, kept abstract. -/
structure TransOps (α : Type) where
  pi : α
  sin : α → α
  cos : α → α
  tan : α → α
  sqrt : α → α
  powf : α → α → α

/-- Trivial interpretation of the transcendental operations over `ℚ`,
used to evaluate the embedding on concrete inputs. -/
def qOps : TransOps ℚ where
  pi := 0
  sin := fun _ => 0
  cos := fun _ => 0
  tan := fun _ => 0
  sqrt := fun _ => 0
  powf := fun _ _ => 0

variable {α : Type} [LinearOrderedField α] [FloorRing α]

/-- Rust `f64::fract`: `x - x.trunc()`, truncation being toward zero. -/
def rustFract (x : α) : α :=
  if x < 0 then x + (⌊-x⌋ : ℤ) else x - (⌊x⌋ : ℤ)

/-- Rust `f64::round`: round half away from zero, as an integer result. -/
def rustRound (x : α) : ℤ :=
  if x < 0 then -⌊-x + 1 / 2⌋ else ⌊x + 1 / 2⌋

/-- Rust `f64::clamp(lo, hi)` (for `lo ≤ hi` and finite arguments). -/
def rclamp (x lo hi : α) : α := min hi (max lo x)

/-- Rust `u32 as f64` / `usize as f64` style cast of a natural number. -/
def natToF (n : ℕ) : α := (n : α)

/-- The `Waveform` enum of `src/parameter.rs`. -/
inductive Waveform where
  | sine
  | triangle
  | sawtooth
  | square
  | tangent
  | whistle
  | breaker
  | whitenoise
  | pinknoise
  | brownnoise
deriving DecidableEq, Repr

/-- The parameter set (`Sound` in `src/sound.rs`).  Field order and names
follow the source; float parameters have carrier `α`, the `i32` parameters
`bit_crush`/`bit_crush_sweep` are `ℤ`, and `harmonics` (an `i32` whose whole
documented range `0..=5` is nonnegative, and for which a negative value makes
`Generator::run` index out of bounds) is modelled as `ℕ`. -/
structure Sound (α : Type) where
  sample_rate : α
  attack : α
  sustain : α
  sustain_punch : α
  decay : α
  tremolo_depth : α
  tremolo_frequency : α
  frequency : α
  frequency_sweep : α
  frequency_delta_sweep : α
  repeat_frequency : α
  frequency_jump1_onset : α
  frequency_jump1_amount : α
  frequency_jump2_onset : α
  frequency_jump2_amount : α
  harmonics : ℕ
  harmonics_falloff : α
  waveform : Waveform
  interpolate_noise : Bool
  vibrato_depth : α
  vibrato_frequency : α
  square_duty : α
  square_duty_sweep : α
  flanger_offset : α
  flanger_offset_sweep : α
  bit_crush : ℤ
  bit_crush_sweep : ℤ
  low_pass_cutoff : α
  low_pass_cutoff_sweep : α
  high_pass_cutoff : α
  high_pass_cutoff_sweep : α
  compression : α
  normalization : Bool
  amplification : α

namespace Sound

/-- `Sound::duration`. -/
def duration (s : Sound α) : α := s.attack + s.sustain + s.decay

/-- `Sound::effective_repeat_frequency`. -/
def effective_repeat_frequency (s : Sound α) : α :=
  max s.repeat_frequency (1 / s.duration)

/-- `Sound::frequency_at`. -/
def frequency_at (ops : TransOps α) (s : Sound α) (time : α) : α :=
  let repeat_frequency := s.effective_repeat_frequency
  let fraction_in_repetition := rustFract (time * repeat_frequency)
  let freq := s.frequency
    + fraction_in_repetition * s.frequency_sweep
    + fraction_in_repetition * fraction_in_repetition * s.frequency_delta_sweep
  let freq := if fraction_in_repetition > s.frequency_jump1_onset / 100 then
      freq * (1 + s.frequency_jump1_amount / 100) else freq
  let freq := if fraction_in_repetition > s.frequency_jump2_onset / 100 then
      freq * (1 + s.frequency_jump2_amount / 100) else freq
  let freq := if s.vibrato_depth ≠ 0 then
      freq + (1 - s.vibrato_depth * (1 / 2 - 1 / 2 * ops.sin (2 * ops.pi * time * s.vibrato_frequency)))
    else freq
  max freq 0

/-- `Sound::square_duty_at`. -/
def square_duty_at (s : Sound α) (time : α) : α :=
  let repeat_frequency := s.effective_repeat_frequency
  let fraction_in_repetition := rustFract (time * repeat_frequency)
  (s.square_duty + fraction_in_repetition * s.square_duty_sweep) / 100

/-- `Sound::amplitude_at`. -/
def amplitude_at (ops : TransOps α) (s : Sound α) (time : α) : α :=
  let amp : α :=
    if time < s.attack then time / s.attack
    else if time < s.attack + s.sustain then
      1 + s.sustain_punch / 100 * (1 - (time - s.attack) / s.sustain)
    else if time < s.attack + s.sustain + s.decay then
      1 - (time - s.attack - s.sustain) / s.decay
    else 0
  if s.tremolo_depth ≠ 0 then
    amp * (1 - s.tremolo_depth / 100 *
      (1 / 2 + 1 / 2 * ops.cos (2 * ops.pi * time * s.tremolo_frequency)))
  else amp

end Sound

/-- The spec formula for `frequencyAt(t)` (spec §4.1), written from the spec
sentence: `frac` is the fractional part of `t × effectiveRepeatFrequency`
(the `f64::fract` fractional part used throughout); base
`frequency + frac·frequencySweep + frac²·frequencyDeltaSweep`; multiplied by
`(1+jumpAmount/100)` once `frac` exceeds `jumpOnset/100` for each of the two
jumps; if `vibratoDepth ≠ 0` the term
`1 − vibratoDepth·(0.5 − 0.5·sin(2π·t·vibratoFrequency))` is added; the
result is clamped to be `≥ 0`. -/
def frequencyAtSpec (ops : TransOps α) (s : Sound α) (t : α) : α :=
  let frac := rustFract (t * max s.repeat_frequency (1 / (s.attack + s.sustain + s.decay)))
  let base := s.frequency + frac * s.frequency_sweep + frac * frac * s.frequency_delta_sweep
  let withJ1 := if frac > s.frequency_jump1_onset / 100
    then base * (1 + s.frequency_jump1_amount / 100) else base
  let withJ2 := if frac > s.frequency_jump2_onset / 100
    then withJ1 * (1 + s.frequency_jump2_amount / 100) else withJ1
  let withVib := if s.vibrato_depth ≠ 0
    then withJ2 + (1 - s.vibrato_depth *
      (1 / 2 - 1 / 2 * ops.sin (2 * ops.pi * t * s.vibrato_frequency)))
    else withJ2
  max withVib 0

/-- The spec formula for `amplitudeAt(t)` (spec §4.1), written from the spec
sentence: `t/attack` on `[0, attack)`; `1 + sustainPunch/100·(1 − (t−attack)/sustain)`
during sustain; the linear ramp `1 − (t−attack−sustain)/decay` during decay;
exactly `0` at or beyond `attack+sustain+decay`; when `tremoloDepth ≠ 0` the
result is multiplied by `1 − (tremoloDepth/100)·(0.5+0.5·cos(2π·t·tremoloFrequency))`. -/
def amplitudeAtSpec (ops : TransOps α) (s : Sound α) (t : α) : α :=
  let base : α :=
    if 0 ≤ t ∧ t < s.attack then t / s.attack
    else if t < s.attack + s.sustain then
      1 + s.sustain_punch / 100 * (1 - (t - s.attack) / s.sustain)
    else if t < s.attack + s.sustain + s.decay then
      1 - (t - s.attack - s.sustain) / s.decay
    else 0
  if s.tremolo_depth ≠ 0 then
    base * (1 - s.tremolo_depth / 100 *
      (1 / 2 + 1 / 2 * ops.cos (2 * ops.pi * t * s.tremolo_frequency)))
  else base

/-- `Synth::new` buffer size: `1.max((sample_rate * sound.duration()).ceil() as usize)`
(the `as usize` cast of a negative `f64` saturates to `0`). -/
def numSamples (s : Sound α) : ℕ :=
  max 1 (⌈s.sample_rate * s.duration⌉.toNat)

/-! ### The deterministic PRNG (`Random` in `src/oscillator.rs`) -/

/-- `2^32`, the modulus of `u32` arithmetic. -/
def M32 : ℕ := 2 ^ 32

/-- The xorshift128 state (`Random` in `src/oscillator.rs`); each component
is a `u32`, modelled as a natural number below `2^32`. -/
structure Random where
  x : ℕ
  y : ℕ
  z : ℕ
  w : ℕ
deriving DecidableEq, Repr

namespace Random

/-- The state update performed by one call of `Random::uint32`:
`t = x ^ (x << 11)` (the `u32` shift discards overflowing bits, hence the
`% 2^32`), then `x ← y; y ← z; z ← w; w ← w ^ (w >> 19) ^ (t ^ (t >> 8))`. -/
def step (r : Random) : Random :=
  let t := r.x ^^^ (r.x <<< 11 % M32)
  { x := r.y, y := r.z, z := r.w,
    w := r.w ^^^ (r.w >>> 19) ^^^ (t ^^^ (t >>> 8)) }

/-- The value returned by one call of `Random::uint32` on state `r`:
the updated `w` plus `0x80000000`, with wrapping `u32` addition. -/
def uint32val (r : Random) : ℕ := ((step r).w + 0x80000000) % M32

/-- `Random::new(seed)`: `x` from the seed, `y`/`z`/`w` from fixed constants,
then 32 warm-up draws are discarded. -/
def new (seed : ℕ) : Random :=
  step^[32] { x := seed, y := 362436069, z := 521288629, w := 88675123 }

/-- `Random::uniform(min, max)`: maps the next `uint32` linearly onto
`[min, max]` (division by `0xffffffff`), returning the drawn value and the
updated state. -/
def uniform (r : Random) (mn mx : α) : α × Random :=
  (mn + (mx - mn) * (uint32val r : α) / (4294967295 : α), step r)

/-- The sequence of draws produced by an instance seeded with `seed`:
`seq seed k` is the value returned by the `(k+1)`-th call of `uint32` after
construction (warm-up draws already discarded by `new`). -/
def seq (seed : ℕ) (k : ℕ) : ℕ := uint32val (step^[k] (new seed))

/-- The state after `n` update steps from the freshly seeded (pre-warm-up)
state; proof-side view of the orbit of `step`. -/
def stateAt (seed : ℕ) (n : ℕ) : Random :=
  step^[n] { x := seed, y := 362436069, z := 521288629, w := 88675123 }

end Random

/-- `x << 11` of a `u32`: shift then truncate to 32 bits. -/
def maskShl (x : ℕ) : ℕ := x <<< 11 % M32

/-- The xor-linear map `x ↦ x ^ (x << 11)` computing `t` in `Random::uint32`. -/
def gmap (x : ℕ) : ℕ := x ^^^ maskShl x

/-- The xor-linear map `w ↦ w ^ (w >> 19)` in `Random::uint32`. -/
def hmap (w : ℕ) : ℕ := w ^^^ (w >>> 19)

/-- The xor-linear map `t ↦ t ^ (t >> 8)` in `Random::uint32`. -/
def qmap (t : ℕ) : ℕ := t ^^^ (t >>> 8)

/-- Explicit inverse of `gmap` (as `(I + S^11)⁻¹ = I + S^11 + S^22` over
`GF(2)^32`, the shift being nilpotent). -/
def ginv (y : ℕ) : ℕ := y ^^^ maskShl y ^^^ maskShl (maskShl y)

/-- Explicit inverse of `qmap` on 32-bit values. -/
def qinv (y : ℕ) : ℕ := y ^^^ y >>> 8 ^^^ y >>> 16 ^^^ y >>> 24

/-- XOR-difference of the `w` components of the orbits of two seeds. -/
def wdiff (s₁ s₂ n : ℕ) : ℕ :=
  (Random.stateAt s₁ n).w ^^^ (Random.stateAt s₂ n).w

/-! ### Oscillators (`src/oscillator.rs`) -/

/-- `lerp` from `src/oscillator.rs`. -/
def lerp (a b f : α) : α := (1 - f) * a + f * b

/-- The fixed seed used for every noise oscillator (`Random::new(0x3cf78ba3)`). -/
def noiseSeed : ℕ := 0x3cf78ba3

/-- State of `WhiteNoiseOscillator`. -/
structure WhiteNoiseState (α : Type) where
  interpolate_noise : Bool
  random : Random
  prev_phase : α
  prev_random : α
  curr_random : α

/-- State of `PinkNoiseOscillator` (the 7-element filter bank `b` is spread
over the fields `b0`–`b6`). -/
structure PinkNoiseState (α : Type) where
  interpolate_noise : Bool
  random : Random
  prev_phase : α
  b0 : α
  b1 : α
  b2 : α
  b3 : α
  b4 : α
  b5 : α
  b6 : α
  prev_random : α
  curr_random : α

/-- State of `BrownNoiseOscillator`. -/
structure BrownNoiseState (α : Type) where
  interpolate_noise : Bool
  random : Random
  prev_phase : α
  prev_random : α
  curr_random : α

/-- `WhiteNoiseOscillator::new`. -/
def WhiteNoiseState.init (s : Sound α) : WhiteNoiseState α :=
  { interpolate_noise := s.interpolate_noise, random := Random.new noiseSeed,
    prev_phase := 0, prev_random := 0, curr_random := 0 }

/-- `PinkNoiseOscillator::new`. -/
def PinkNoiseState.init (s : Sound α) : PinkNoiseState α :=
  { interpolate_noise := s.interpolate_noise, random := Random.new noiseSeed,
    prev_phase := 0, b0 := 0, b1 := 0, b2 := 0, b3 := 0, b4 := 0, b5 := 0, b6 := 0,
    prev_random := 0, curr_random := 0 }

/-- `BrownNoiseOscillator::new`. -/
def BrownNoiseState.init (s : Sound α) : BrownNoiseState α :=
  { interpolate_noise := s.interpolate_noise, random := Random.new noiseSeed,
    prev_phase := 0, prev_random := 0, curr_random := 0 }

/-- `WhiteNoiseOscillator::get_sample`. -/
def whiteNoiseGet (st : WhiteNoiseState α) (phase : α) : α × WhiteNoiseState α :=
  let phase := rustFract (phase * 2)
  if phase < st.prev_phase then
    let (u, r') := Random.uniform st.random (-1) 1
    let pr := st.curr_random
    let cr := u
    (if st.interpolate_noise then lerp pr cr phase else cr,
      { interpolate_noise := st.interpolate_noise, random := r',
        prev_phase := phase, prev_random := pr, curr_random := cr })
  else
    (if st.interpolate_noise then lerp st.prev_random st.curr_random phase else st.curr_random,
      { interpolate_noise := st.interpolate_noise, random := st.random,
        prev_phase := phase, prev_random := st.prev_random, curr_random := st.curr_random })

/-- `PinkNoiseOscillator::get_sample` (Paul Kellet's pk3 filter bank). -/
def pinkNoiseGet (st : PinkNoiseState α) (phase : α) : α × PinkNoiseState α :=
  let phase := rustFract (phase * 2)
  if phase < st.prev_phase then
    let (white, r') := Random.uniform st.random (-1) 1
    let pr := st.curr_random
    let b0 := 0.99886 * st.b0 + white * 0.0555179
    let b1 := 0.99332 * st.b1 + white * 0.0750759
    let b2 := 0.96900 * st.b2 + white * 0.1538520
    let b3 := 0.86650 * st.b3 + white * 0.3104856
    let b4 := 0.55000 * st.b4 + white * 0.5329522
    let b5 := -0.7616 * st.b5 + white * 0.0168980
    let cr := (b0 + b1 + b2 + b3 + b4 + b5 + st.b6 + white * 0.5362) / 7
    let b6 := white * 0.115926
    (if st.interpolate_noise then lerp pr cr phase else cr,
      { interpolate_noise := st.interpolate_noise, random := r', prev_phase := phase,
        b0 := b0, b1 := b1, b2 := b2, b3 := b3, b4 := b4, b5 := b5, b6 := b6,
        prev_random := pr, curr_random := cr })
  else
    (if st.interpolate_noise then lerp st.prev_random st.curr_random phase else st.curr_random,
      { interpolate_noise := st.interpolate_noise, random := st.random, prev_phase := phase,
        b0 := st.b0, b1 := st.b1, b2 := st.b2, b3 := st.b3, b4 := st.b4, b5 := st.b5,
        b6 := st.b6, prev_random := st.prev_random, curr_random := st.curr_random })

/-- `BrownNoiseOscillator::get_sample`. -/
def brownNoiseGet (st : BrownNoiseState α) (phase : α) : α × BrownNoiseState α :=
  let phase := rustFract (phase * 2)
  if phase < st.prev_phase then
    let (u, r') := Random.uniform st.random (-1) 1
    let pr := st.curr_random
    let cr := rclamp (st.curr_random + 0.1 * u) (-1) 1
    (if st.interpolate_noise then lerp pr cr phase else cr,
      { interpolate_noise := st.interpolate_noise, random := r',
        prev_phase := phase, prev_random := pr, curr_random := cr })
  else
    (if st.interpolate_noise then lerp st.prev_random st.curr_random phase else st.curr_random,
      { interpolate_noise := st.interpolate_noise, random := st.random,
        prev_phase := phase, prev_random := st.prev_random, curr_random := st.curr_random })

/-- One oscillator instance: the waveform tag together with any carried
state, as selected by `Generator::new` from the `Waveform` enum. -/
inductive OscState (α : Type) where
  | sine
  | triangle
  | sawtooth
  | square
  | tangent
  | whistle
  | breaker
  | whitenoise (st : WhiteNoiseState α)
  | pinknoise (st : PinkNoiseState α)
  | brownnoise (st : BrownNoiseState α)

/-- Oscillator construction (the `match sound.waveform` in `Generator::new`). -/
def OscState.init (s : Sound α) : OscState α :=
  match s.waveform with
  | .sine => .sine
  | .triangle => .triangle
  | .sawtooth => .sawtooth
  | .square => .square
  | .tangent => .tangent
  | .whistle => .whistle
  | .breaker => .breaker
  | .whitenoise => .whitenoise (WhiteNoiseState.init s)
  | .pinknoise => .pinknoise (PinkNoiseState.init s)
  | .brownnoise => .brownnoise (BrownNoiseState.init s)

/-- `Oscillator::get_sample`, dispatched on the oscillator kind. -/
def OscState.get (ops : TransOps α) (s : Sound α) (o : OscState α) (phase time : α) :
    α × OscState α :=
  match o with
  | .sine => (ops.sin (2 * ops.pi * phase), .sine)
  | .triangle =>
    (if phase < 0.25 then 4 * phase
      else if phase < 0.75 then 2 - 4 * phase
      else -4 + 4 * phase, .triangle)
  | .sawtooth =>
    (if phase < 0.5 then 2 * phase else -2 + 2 * phase, .sawtooth)
  | .square =>
    (if phase < s.square_duty_at time then 1 else -1, .square)
  | .tangent =>
    (rclamp (0.3 * ops.tan (ops.pi * phase)) (-2) 2, .tangent)
  | .whistle =>
    (0.75 * ops.sin (2 * ops.pi * phase) + 0.25 * ops.sin (40 * ops.pi * phase), .whistle)
  | .breaker =>
    (let p := rustFract (phase + ops.sqrt 0.75);
      -1 + 2 * |1 - p * p * 2|, .breaker)
  | .whitenoise st =>
    let r := whiteNoiseGet st phase
    (r.1, .whitenoise r.2)
  | .pinknoise st =>
    let r := pinkNoiseGet st phase
    (r.1, .pinknoise r.2)
  | .brownnoise st =>
    let r := brownNoiseGet st phase
    (r.1, .brownnoise r.2)

/-! ### The transformer pipeline (`src/synth.rs`) -/

/-- State of the `Generator` stage: the `(harmonics+1)` oscillator
instances, the normalizing amplitude of the fundamental, and the
accumulated phase. -/
structure GenState (α : Type) where
  oscillators : List (OscState α)
  first_harmonic_amp : α
  phase : α

/-- The `(amp, total_amp)` accumulator of the construction loop in
`Generator::new` after `n` iterations: each iteration first adds `amp` to
the total and then multiplies `amp` by the harmonics falloff. -/
def genAmpAcc (falloff : α) : ℕ → α × α
  | 0 => (1, 0)
  | n + 1 =>
    let p := genAmpAcc falloff n
    (p.1 * falloff, p.2 + p.1)

/-- `Generator::new`: builds `harmonics+1` oscillators (each constructed
fresh from the waveform tag, hence all with identical initial state) and
sets `first_harmonic_amp = 1 / total_amp`. -/
def GenState.init (s : Sound α) : GenState α :=
  { oscillators := List.replicate (s.harmonics + 1) (OscState.init s),
    first_harmonic_amp := 1 / (genAmpAcc s.harmonics_falloff (s.harmonics + 1)).2,
    phase := 0 }

/-- The inner harmonics loop of `Generator::run` at one sample: left-fold
over the oscillator list with accumulated sample and amplitude;
`harmonic_phase = frac(phase · (k+1))`, the amplitude is multiplied by the
falloff after each harmonic, and each oscillator's updated state is kept. -/
def genHarmonicsLoop (ops : TransOps α) (s : Sound α) (phase time : α) :
    ℕ → α → α → List (OscState α) → α × List (OscState α)
  | _, sample, _, [] => (sample, [])
  | k, sample, amp, o :: os =>
    let harmonic_phase := rustFract (phase * ((k + 1 : ℕ) : α))
    let r := OscState.get ops s o harmonic_phase time
    let rest := genHarmonicsLoop ops s phase time (k + 1) (sample + amp * r.1)
      (amp * s.harmonics_falloff) os
    (rest.1, r.2 :: rest.2)

/-- The per-sample body of `Generator::run`: advance the shared phase by
`frequencyAt(t)/sampleRate` (wrapped), then run the harmonics loop starting
from amplitude `first_harmonic_amp`. -/
def genStep (ops : TransOps α) (s : Sound α) (g : GenState α) (i : ℕ) : α × GenState α :=
  let time := (i : α) / s.sample_rate
  let current_frequency := s.frequency_at ops time
  let phase := rustFract (g.phase + current_frequency / s.sample_rate)
  let r := genHarmonicsLoop ops s phase time 0 0 g.first_harmonic_amp g.oscillators
  (r.1, { oscillators := r.2, first_harmonic_amp := g.first_harmonic_amp, phase := phase })

/-- Generic per-sample block runner: for `i` in `[s, e)`, read `arr[i]`,
apply the step to it, write the result back, and thread the carried state.
Every transformer's per-sample loop is an instance of this scheme. -/
def runSteps {σ : Type} (f : ℕ → α → σ → α × σ) (s e : ℕ) (arr : List α) (st : σ) :
    List α × σ :=
  if h : s < e then
    runSteps f (s + 1) e (arr.set s (f s (arr.getD s 0) st).1) (f s (arr.getD s 0) st).2
  else (arr, st)
termination_by e - s

/-- The per-sample body of `Generator::run` as a step (the input sample is
overwritten, not read). -/
def generatorStep (ops : TransOps α) (s : Sound α) : ℕ → α → GenState α → α × GenState α :=
  fun i _ st => genStep ops s st i

/-- `<Generator as Transformer>::run`. -/
def Generator.run (ops : TransOps α) (s : Sound α) (arr : List α) (a b : ℕ)
    (g : GenState α) : List α × GenState α :=
  runSteps (generatorStep ops s) a b arr g

/-- The per-sample body of `Envelope::run`. -/
def envStep (ops : TransOps α) (s : Sound α) : ℕ → α → Unit → α × Unit :=
  fun i v _ => (v * s.amplitude_at ops ((i : α) / s.sample_rate), ())

/-- `<Envelope as Transformer>::run` (the whole block is skipped when
attack, sustain punch, decay and tremolo depth are all zero). -/
def Envelope.run (ops : TransOps α) (s : Sound α) (arr : List α) (a b : ℕ) : List α :=
  if s.attack = 0 ∧ s.sustain_punch = 0 ∧ s.decay = 0 ∧ s.tremolo_depth = 0 then arr
  else (runSteps (envStep ops s) a b arr ()).1

/-- State of the `Flanger` stage: the optional delay buffer and the write
cursor. -/
structure FlangerState (α : Type) where
  buffer : Option (List α)
  buffer_pos : ℕ

/-- `Flanger::new`: allocates a 100ms delay buffer only when the offset or
its sweep is non-zero. -/
def FlangerState.init (s : Sound α) : FlangerState α :=
  { buffer := if s.flanger_offset ≠ 0 ∨ s.flanger_offset_sweep ≠ 0
      then some (List.replicate (⌈s.sample_rate * 0.1⌉.toNat) 0) else none,
    buffer_pos := 0 }

/-- `2^64`, the modulus of `usize` arithmetic (64-bit target). -/
def U64 : ℕ := 2 ^ 64

/-- Wrapping `usize` subtraction (release-build semantics).  In debug
builds the source's `buffer_pos - offset_samples` panics on underflow,
i.e. whenever `a < b`. -/
def usizeSub (a b : ℕ) : ℕ := (a + (U64 - b % U64)) % U64

/-- The delay-line read index computed by `Flanger::run`:
`(buffer_pos - offset_samples + buffer_length) % buffer_length` with
wrapping `usize` arithmetic. -/
def flangerIndexRaw (pos os bl : ℕ) : ℕ := (usizeSub pos os + bl) % U64 % bl

/-- `offset_samples` before clamping:
`((flanger_offset + i/num_samples·flanger_offset_sweep)/1000 · sample_rate).round() as usize`
(the saturating cast of a negative value gives `0`). -/
def flangerOffsetSamples (s : Sound α) (num_samples i : ℕ) : ℕ :=
  (rustRound ((s.flanger_offset + (i : α) / (num_samples : α) * s.flanger_offset_sweep)
    / 1000 * s.sample_rate)).toNat

/-- The per-sample body of `Flanger::run`: write the current sample into
the delay buffer at the cursor, clamp the offset to `[0, bufferLength-1]`,
add the delayed value, and advance the cursor. -/
def flangerStep (s : Sound α) (num_samples bl i : ℕ) (v : α) (st : List α × ℕ) :
    α × (List α × ℕ) :=
  let buf := st.1.set st.2 v
  let os := min (bl - 1) (flangerOffsetSamples s num_samples i)
  (v + buf.getD (flangerIndexRaw st.2 os bl) 0, (buf, (st.2 + 1) % bl))

/-- `<Flanger as Transformer>::run` (no-op when no delay buffer was
allocated). -/
def Flanger.run (s : Sound α) (arr : List α) (a b : ℕ) (fs : FlangerState α) :
    List α × FlangerState α :=
  match fs.buffer with
  | none => (arr, fs)
  | some buffer =>
    let r := runSteps (fun i v st => flangerStep s arr.length buffer.length i v st)
      a b arr (buffer, fs.buffer_pos)
    (r.1, { buffer := some r.2.1, buffer_pos := r.2.2 })

/-- The per-sample body of `BitCrush::run` (`num_samples` passed in as `n`):
`bits = round(bitCrush + i/n·bitCrushSweep)` saturating-cast and clamped to
`[1,16]`, `steps = powf(2, bits)`, then quantization. -/
def bitCrushStep (ops : TransOps α) (s : Sound α) (n : ℕ) : ℕ → α → Unit → α × Unit :=
  fun i v _ =>
    let bits := min 16 (max 1
      (rustRound ((s.bit_crush : α) + (i : α) / (n : α) * (s.bit_crush_sweep : α))).toNat)
    let steps := ops.powf 2 ((bits : ℕ) : α)
    (-1 + 2 * ((rustRound ((0.5 + 0.5 * v) * steps) : ℤ) : α) / steps, ())

/-- `<BitCrush as Transformer>::run`. -/
def BitCrush.run (ops : TransOps α) (s : Sound α) (arr : List α) (a b : ℕ) : List α :=
  if s.bit_crush = 0 ∧ s.bit_crush_sweep = 0 then arr
  else (runSteps (bitCrushStep ops s arr.length) a b arr ()).1

/-- The per-sample body of `LowPass::run`; the state is the previous output
sample. -/
def lowPassStep (ops : TransOps α) (s : Sound α) (n : ℕ) : ℕ → α → α → α × α :=
  fun i v p =>
    let fraction := (i : α) / (n : α)
    let cutoff := rclamp (s.low_pass_cutoff + fraction * s.low_pass_cutoff_sweep)
      0 (s.sample_rate / 2)
    let wc := cutoff / s.sample_rate * ops.pi
    let cos_wc := ops.cos wc
    let lpAlpha := if cos_wc ≤ 0 then 1
      else 1 - (1 / cos_wc - ops.sqrt (1 / (cos_wc * cos_wc) - 1))
    let sample := lpAlpha * v + (1 - lpAlpha) * p
    (sample, sample)

/-- `<LowPass as Transformer>::run`. -/
def LowPass.run (ops : TransOps α) (s : Sound α) (arr : List α) (a b : ℕ) (prev : α) :
    List α × α :=
  if s.low_pass_cutoff ≥ s.sample_rate / 2 ∧
      s.low_pass_cutoff + s.low_pass_cutoff_sweep ≥ s.sample_rate / 2 then (arr, prev)
  else runSteps (lowPassStep ops s arr.length) a b arr prev

/-- The per-sample body of `HighPass::run`; the state is
(previous input, previous output). -/
def highPassStep (ops : TransOps α) (s : Sound α) (n : ℕ) : ℕ → α → α × α → α × (α × α) :=
  fun i v p =>
    let fraction := (i : α) / (n : α)
    let cutoff := rclamp (s.high_pass_cutoff + fraction * s.high_pass_cutoff_sweep)
      0 (s.sample_rate / 2)
    let wc := cutoff / s.sample_rate * ops.pi
    let hpAlpha := (1 - ops.sin wc) / ops.cos wc
    let sample := hpAlpha * (p.2 - p.1 + v)
    (sample, (v, sample))

/-- `<HighPass as Transformer>::run`. -/
def HighPass.run (ops : TransOps α) (s : Sound α) (arr : List α) (a b : ℕ)
    (st : α × α) : List α × (α × α) :=
  if s.high_pass_cutoff ≤ 0 ∧ s.high_pass_cutoff + s.high_pass_cutoff_sweep ≤ 0 then
    (arr, st)
  else runSteps (highPassStep ops s arr.length) a b arr st

/-- The per-sample body of `Compress::run`:
`sample = sign(sample)·|sample|^compression`. -/
def compressStep (ops : TransOps α) (s : Sound α) : ℕ → α → Unit → α × Unit :=
  fun _ v _ =>
    (if v ≥ 0 then ops.powf v s.compression else -ops.powf (-v) s.compression, ())

/-- `<Compress as Transformer>::run`. -/
def Compress.run (ops : TransOps α) (s : Sound α) (arr : List α) (a b : ℕ) : List α :=
  if s.compression = 1 then arr
  else (runSteps (compressStep ops s) a b arr ()).1

/-- The max-accumulation loop of `Normalize::run` over `[s, e)`. -/
def normMaxAcc (arr : List α) (s e : ℕ) (m : α) : α :=
  if h : s < e then normMaxAcc arr (s + 1) e (max m |arr.getD s 0|) else m
termination_by e - s

/-- `<Normalize as Transformer>::run`: accumulate the running maximum over
the block; on the block that reaches the end of the buffer, rescale the
whole buffer by `1/max`. -/
def Normalize.run (s : Sound α) (arr : List α) (a b : ℕ) (max_sample : α) :
    List α × α :=
  if s.normalization = false then (arr, max_sample)
  else
    let m := normMaxAcc arr a b max_sample
    (if b = arr.length then arr.map (fun v => v * (1 / m)) else arr, m)

/-- The per-sample body of `Amplify::run`. -/
def amplifyStep (s : Sound α) : ℕ → α → Unit → α × Unit :=
  fun _ v _ => (v * (s.amplification / 100), ())

/-- `<Amplify as Transformer>::run`. -/
def Amplify.run (s : Sound α) (arr : List α) (a b : ℕ) : List α :=
  if s.amplification / 100 = 1 then arr
  else (runSteps (amplifyStep s) a b arr ()).1

/-- The carried state of the whole pipeline: one field per stateful stage
(the stage list of `Synth::new`, in order; Envelope, BitCrush, Compress and
Amplify are stateless). -/
structure PipeState (α : Type) where
  gen : GenState α
  flanger : FlangerState α
  low_pass_prev : α
  high_pass_prev_in : α
  high_pass_prev_out : α
  max_sample : α

/-- The pipeline state built by `Synth::new` via the stage constructors. -/
def PipeState.init (s : Sound α) : PipeState α :=
  { gen := GenState.init s, flanger := FlangerState.init s, low_pass_prev := 0,
    high_pass_prev_in := 0, high_pass_prev_out := 0, max_sample := 0 }

/-- The `Synth` driver state: output buffer, cursor, block size, and the
pipeline state. -/
structure Synth (α : Type) where
  arr : List α
  start_sample : ℕ
  block_size : ℕ
  ps : PipeState α

/-- `Synth::new`: allocates `max(1, ceil(sampleRate·duration))` zero
samples, cursor `0`, block size `10240`, and the freshly constructed
stages. -/
def Synth.new (s : Sound α) : Synth α :=
  { arr := List.replicate (numSamples s) 0, start_sample := 0, block_size := 10240,
    ps := PipeState.init s }

/-- `Synth::new` with the block size adjusted (§6: the block size is a
config option; `Synth::new` itself always uses 10240). -/
def Synth.newWith (s : Sound α) (bs : ℕ) : Synth α :=
  { arr := List.replicate (numSamples s) 0, start_sample := 0, block_size := bs,
    ps := PipeState.init s }

/-- One block through all nine stages in pipeline order (the transformer
loop inside `Synth::tick`). -/
def runBlock (ops : TransOps α) (s : Sound α) (arr : List α) (a b : ℕ)
    (ps : PipeState α) : List α × PipeState α :=
  let r1 := Generator.run ops s arr a b ps.gen
  let arr2 := Envelope.run ops s r1.1 a b
  let r3 := Flanger.run s arr2 a b ps.flanger
  let arr4 := BitCrush.run ops s r3.1 a b
  let r5 := LowPass.run ops s arr4 a b ps.low_pass_prev
  let r6 := HighPass.run ops s r5.1 a b (ps.high_pass_prev_in, ps.high_pass_prev_out)
  let arr7 := Compress.run ops s r6.1 a b
  let r8 := Normalize.run s arr7 a b ps.max_sample
  let arr9 := Amplify.run s r8.1 a b
  (arr9, { gen := r1.2, flanger := r3.2, low_pass_prev := r5.2,
           high_pass_prev_in := r6.2.1, high_pass_prev_out := r6.2.2, max_sample := r8.2 })

/-- `Synth::tick`: returns immediately once the cursor has reached the end;
otherwise processes the next block of up to `block_size` samples through
all stages and advances the cursor.  The boolean is the source's return
value (`start_sample >= num_samples` after the block). -/
def Synth.tick (ops : TransOps α) (s : Sound α) (st : Synth α) : Synth α × Bool :=
  let num_samples := st.arr.length
  if st.start_sample ≥ num_samples then (st, true)
  else
    let end_sample := min (st.start_sample + st.block_size) num_samples
    let r := runBlock ops s st.arr st.start_sample end_sample st.ps
    ({ arr := r.1, start_sample := end_sample, block_size := st.block_size, ps := r.2 },
      decide (end_sample ≥ num_samples))

/-- `k` repeated calls of `Synth::tick`. -/
def Synth.runTicks (ops : TransOps α) (s : Sound α) (st : Synth α) : ℕ → Synth α
  | 0 => st
  | k + 1 => Synth.runTicks ops s (Synth.tick ops s st).1 k

/-- `Synth::generate`: `while !self.tick() {}` then return the buffer.
With a positive block size every tick advances the cursor by at least one
sample, so `arr.length` ticks always run the loop to completion (further
ticks return immediately without changing anything). -/
def Synth.generate (ops : TransOps α) (s : Sound α) (st : Synth α) : List α :=
  (Synth.runTicks ops s st st.arr.length).arr

/-- Top-level `generate` from `src/lib.rs`. -/
def generate (ops : TransOps α) (s : Sound α) : List α :=
  Synth.generate ops s (Synth.new s)

/-! ### Proof-side view of the pipeline: per-sample fusion

Each stage processes a block as a per-sample left-to-right pass that reads
and writes only `arr[i]` and its own carried state, so running the stages
one after another over the same block equals a single per-sample pass of
the fused step (proved below as `runSteps_fuse`).  The definitions here
package each stage (with its block-level no-op condition, which does not
depend on the block) as such a step, and the whole pre-Amplify pipeline as
one fused step. -/

/-- Sequential composition of two per-sample steps: apply `f`, feed its
output sample to `g`, pair the states. -/
def fuseSteps {σ τ : Type} (f : ℕ → α → σ → α × σ) (g : ℕ → α → τ → α × τ) :
    ℕ → α → σ × τ → α × (σ × τ) :=
  fun i v st =>
    ((g i (f i v st.1).1 st.2).1, ((f i v st.1).2, (g i (f i v st.1).1 st.2).2))

/-- `Envelope::run` as a per-sample step (identity when the stage's skip
condition holds). -/
def effEnvStep (ops : TransOps α) (s : Sound α) : ℕ → α → Unit → α × Unit :=
  fun i v u =>
    if s.attack = 0 ∧ s.sustain_punch = 0 ∧ s.decay = 0 ∧ s.tremolo_depth = 0 then (v, u)
    else envStep ops s i v u

/-- `Flanger::run` as a per-sample step on the full `FlangerState`
(identity when no delay buffer was allocated). -/
def effFlangerStep (s : Sound α) (n : ℕ) : ℕ → α → FlangerState α → α × FlangerState α :=
  fun i v fs =>
    match fs.buffer with
    | none => (v, fs)
    | some buf =>
      ((flangerStep s n buf.length i v (buf, fs.buffer_pos)).1,
        { buffer := some (flangerStep s n buf.length i v (buf, fs.buffer_pos)).2.1,
          buffer_pos := (flangerStep s n buf.length i v (buf, fs.buffer_pos)).2.2 })

/-- `BitCrush::run` as a per-sample step. -/
def effBitCrushStep (ops : TransOps α) (s : Sound α) (n : ℕ) : ℕ → α → Unit → α × Unit :=
  fun i v u =>
    if s.bit_crush = 0 ∧ s.bit_crush_sweep = 0 then (v, u) else bitCrushStep ops s n i v u

/-- `LowPass::run` as a per-sample step. -/
def effLowPassStep (ops : TransOps α) (s : Sound α) (n : ℕ) : ℕ → α → α → α × α :=
  fun i v p =>
    if s.low_pass_cutoff ≥ s.sample_rate / 2 ∧
        s.low_pass_cutoff + s.low_pass_cutoff_sweep ≥ s.sample_rate / 2 then (v, p)
    else lowPassStep ops s n i v p

/-- `HighPass::run` as a per-sample step. -/
def effHighPassStep (ops : TransOps α) (s : Sound α) (n : ℕ) :
    ℕ → α → α × α → α × (α × α) :=
  fun i v p =>
    if s.high_pass_cutoff ≤ 0 ∧ s.high_pass_cutoff + s.high_pass_cutoff_sweep ≤ 0 then (v, p)
    else highPassStep ops s n i v p

/-- `Compress::run` as a per-sample step. -/
def effCompressStep (ops : TransOps α) (s : Sound α) : ℕ → α → Unit → α × Unit :=
  fun i v u => if s.compression = 1 then (v, u) else compressStep ops s i v u

/-- The max-accumulation half of `Normalize::run` as a per-sample step
(the sample passes through unchanged; the deferred whole-buffer rescale is
handled separately). -/
def effNormAccStep (s : Sound α) : ℕ → α → α → α × α :=
  fun _ v m => (v, if s.normalization = true then max m |v| else m)

/-- The carried state of the fused pre-Amplify pipeline. -/
abbrev BigState (α : Type) :=
  ((((((GenState α × Unit) × FlangerState α) × Unit) × α) × (α × α)) × Unit) × α

/-- The fused per-sample step of the first eight stages (Generator,
Envelope, Flanger, BitCrush, LowPass, HighPass, Compress, Normalize's
max accumulation), in pipeline order. -/
def megaStep (ops : TransOps α) (s : Sound α) (n : ℕ) :
    ℕ → α → BigState α → α × BigState α :=
  fuseSteps (fuseSteps (fuseSteps (fuseSteps (fuseSteps (fuseSteps (fuseSteps
    (generatorStep ops s) (effEnvStep ops s)) (effFlangerStep s n))
    (effBitCrushStep ops s n)) (effLowPassStep ops s n)) (effHighPassStep ops s n))
    (effCompressStep ops s)) (effNormAccStep s)

/-- Packing of the pipeline state into the fused state. -/
def bigOf (ps : PipeState α) : BigState α :=
  (((((((ps.gen, ()), ps.flanger), ()), ps.low_pass_prev),
    (ps.high_pass_prev_in, ps.high_pass_prev_out)), ()), ps.max_sample)

/-- Unpacking of the fused state. -/
def psOf (b : BigState α) : PipeState α :=
  { gen := b.1.1.1.1.1.1.1, flanger := b.1.1.1.1.1.2, low_pass_prev := b.1.1.1.2,
    high_pass_prev_in := b.1.1.2.1, high_pass_prev_out := b.1.1.2.2, max_sample := b.2 }

/-- The all-zero output buffer allocated by `Synth::new`. -/
def arr0 (s : Sound α) : List α := List.replicate (numSamples s) 0

/-- The canonical (block-size-independent) run of the fused pre-Amplify
pipeline over the first `k` samples. -/
def canonicalRun (ops : TransOps α) (s : Sound α) (k : ℕ) : List α × BigState α :=
  runSteps (megaStep ops s (numSamples s)) 0 k (arr0 s) (bigOf (PipeState.init s))

/-- The running maximum accumulated by Normalize over the whole buffer. -/
def finalMax (ops : TransOps α) (s : Sound α) : α :=
  (canonicalRun ops s (numSamples s)).2.2

/-- The factor applied by Normalize's deferred rescale (`1` when
normalization is disabled). -/
def normFactor (ops : TransOps α) (s : Sound α) : α :=
  if s.normalization = true then 1 / finalMax ops s else 1

/-- The canonical fully-generated buffer: pre-Amplify samples, rescaled by
the normalization factor and the amplification factor. -/
def finalArr (ops : TransOps α) (s : Sound α) : List α :=
  (canonicalRun ops s (numSamples s)).1.map
    (fun v => v * normFactor ops s * (s.amplification / 100))

/-- The canonical buffer before the Amplify stage (after Normalize's final
rescale), used to state the normalization property. -/
def preAmplifyArr (ops : TransOps α) (s : Sound α) : List α :=
  (canonicalRun ops s (numSamples s)).1.map (fun v => v * normFactor ops s)

/-- Maximum absolute sample value of a buffer (fold from `0`). -/
def listMaxAbs (l : List α) : α := l.foldl (fun m v => max m |v|) 0

/-- The single-fundamental-oscillator baseline of spec Scenario B, written
from the spec's words: with `harmonics = 0` the Generator degenerates to
one oscillator; per sample the shared phase advances by
`frequencyAt(t)/sampleRate` (wrapped) and the sole term has amplitude 1,
its harmonic phase being the shared phase itself.  Returns the sample and
the updated (oscillator state, phase). -/
def baselineGenStep (ops : TransOps α) (s : Sound α) (o : OscState α) (ph : α)
    (i : ℕ) : α × (OscState α × α) :=
  let time := (i : α) / s.sample_rate
  let phase := rustFract (ph + s.frequency_at ops time / s.sample_rate)
  let r := OscState.get ops s o phase time
  (r.1, (r.2, phase))

/-- A concrete parameter set over `ℚ` (the defaults of `src/parameter.rs`,
with a 0.1s/0.1s/0.1s envelope), used to evaluate theorems on a concrete
input. -/
def sampleSound : Sound ℚ where
  sample_rate := 44100
  attack := 1 / 10
  sustain := 1 / 10
  sustain_punch := 0
  decay := 1 / 10
  tremolo_depth := 0
  tremolo_frequency := 10
  frequency := 440
  frequency_sweep := 0
  frequency_delta_sweep := 0
  repeat_frequency := 0
  frequency_jump1_onset := 33
  frequency_jump1_amount := 0
  frequency_jump2_onset := 66
  frequency_jump2_amount := 0
  harmonics := 0
  harmonics_falloff := 13 / 2
  waveform := .sine
  interpolate_noise := true
  vibrato_depth := 0
  vibrato_frequency := 10
  square_duty := 50
  square_duty_sweep := 0
  flanger_offset := 0
  flanger_offset_sweep := 0
  bit_crush := 16
  bit_crush_sweep := 0
  low_pass_cutoff := 22050
  low_pass_cutoff_sweep := 0
  high_pass_cutoff := 0
  high_pass_cutoff_sweep := 0
  compression := 1
  normalization := true
  amplification := 100

/-- A minimal IEEE-754 value model for the one division and multiplication
performed by `Normalize`'s deferred rescale (`factor = 1.0 / max_sample;
array[i] *= factor`): finite values over `α`, the two infinities, and NaN.
`α` has a single zero (the accumulated `max(…) ` that reaches `0` is the
positive zero of `f64`). -/
inductive FV (α : Type) where
  | fin (x : α)
  | inf
  | ninf
  | nan

/-- IEEE finiteness: only `fin` values are finite. -/
def FV.isFinite : FV α → Bool
  | .fin _ => true
  | _ => false

/-- IEEE multiplication on the value model. -/
def FV.mul : FV α → FV α → FV α
  | .nan, _ => .nan
  | _, .nan => .nan
  | .fin a, .fin b => .fin (a * b)
  | .fin a, .inf => if a = 0 then .nan else if 0 < a then .inf else .ninf
  | .fin a, .ninf => if a = 0 then .nan else if 0 < a then .ninf else .inf
  | .inf, .fin b => if b = 0 then .nan else if 0 < b then .inf else .ninf
  | .ninf, .fin b => if b = 0 then .nan else if 0 < b then .ninf else .inf
  | .inf, .inf => .inf
  | .inf, .ninf => .ninf
  | .ninf, .inf => .ninf
  | .ninf, .ninf => .inf

/-- IEEE division on the value model (division by the single zero of `α`
behaves as division by `+0`). -/
def FV.div : FV α → FV α → FV α
  | .nan, _ => .nan
  | _, .nan => .nan
  | .fin a, .fin b =>
    if b = 0 then (if a = 0 then .nan else if 0 < a then .inf else .ninf)
    else .fin (a / b)
  | .fin _, .inf => .fin 0
  | .fin _, .ninf => .fin 0
  | .inf, .fin b => if 0 ≤ b then .inf else .ninf
  | .ninf, .fin b => if 0 ≤ b then .ninf else .inf
  | .inf, .inf => .nan
  | .inf, .ninf => .nan
  | .ninf, .inf => .nan
  | .ninf, .ninf => .nan

/-- The `f64` semantics of `Normalize`'s final rescale of one sample:
`sample * (1.0 / max_sample)`. -/
def rescaleFV (v m : FV α) : FV α := FV.mul v (FV.div (FV.fin 1) m)

/-- `sampleSound` with bit crush depth 0, so that every stage's no-op
condition holds. -/
def noopSound : Sound ℚ := { sampleSound with bit_crush := 0 }

/-- `sampleSound` with a 10ms flanger offset (activates the Flanger). -/
def flangerSound : Sound ℚ := { sampleSound with flanger_offset := 10 }

/-- A duration-zero parameter set over `ℚ` (attack = sustain = decay = 0,
with a non-zero sustain punch so that the Envelope stage is active and
forces every sample to zero). -/
def zeroDurSound : Sound ℚ :=
  { sampleSound with attack := 0, sustain := 0, decay := 0, sustain_punch := 1, bit_crush := 0 }

/-- A tiny two-sample square-wave parameter set over `ℚ` whose generated
samples are non-zero (used to evaluate the normalization peak property on
a concrete input). -/
def squareSound : Sound ℚ :=
  { sampleSound with sample_rate := 2, attack := 0, sustain := 1, decay := 0, bit_crush := 0, waveform := .square }

/-! ## Theorems -/

theorem rustFract_of_nonneg {x : α} (h : 0 ≤ x) : rustFract x = Int.fract x := by
  unfold rustFract Int.fract
  rw [if_neg (not_lt.mpr h)]

theorem rustFract_nonneg_of_nonneg {x : α} (h : 0 ≤ x) : 0 ≤ rustFract x := by
  rw [rustFract_of_nonneg h]; exact Int.fract_nonneg x

theorem rustFract_lt_one_of_nonneg {x : α} (h : 0 ≤ x) : rustFract x < 1 := by
  rw [rustFract_of_nonneg h]; exact Int.fract_lt_one x

/-- **C5**: for every parameter set and every time `t`, `Sound::frequency_at`
computes exactly the spec formula: with `frac` the fractional part of
`t × effectiveRepeatFrequency` (where `effectiveRepeatFrequency =
max(repeatFrequency, 1/duration)`), the base
`frequency + frac·frequencySweep + frac²·frequencyDeltaSweep` is multiplied
by `(1+jump1Amount/100)` when `frac` exceeds `jump1Onset/100` and likewise
for jump 2; if `vibratoDepth ≠ 0` the term
`1 − vibratoDepth·(0.5 − 0.5·sin(2π·t·vibratoFrequency))` is added; and the
result is clamped to be `≥ 0`. -/
theorem frequency_at_matches_spec (ops : TransOps α) (s : Sound α) (t : α) :
    s.frequency_at ops t = frequencyAtSpec ops s t := rfl

/-- **C6**: for every parameter set and every time `t ≥ 0`,
`Sound::amplitude_at` is the spec's piecewise function: `t/attack` on
`[0, attack)`; `1 + sustainPunch/100·(1 − (t−attack)/sustain)` during
sustain; the linear ramp `1 − (t−attack−sustain)/decay` during decay;
exactly `0` at or beyond `attack+sustain+decay`; and when `tremoloDepth ≠ 0`
the result is multiplied by
`1 − (tremoloDepth/100)·(0.5+0.5·cos(2π·t·tremoloFrequency))`. -/
theorem amplitude_at_matches_spec (ops : TransOps α) (s : Sound α) (t : α)
    (ht : 0 ≤ t) :
    s.amplitude_at ops t = amplitudeAtSpec ops s t := by
  unfold Sound.amplitude_at amplitudeAtSpec
  by_cases h : t < s.attack
  · simp [h, ht]
  · simp [h, ht]

/-- Witness for `amplitude_at_matches_spec` at `t = 1/20` on `sampleSound`. -/
theorem amplitude_at_matches_spec_witness :
    (0 : ℚ) ≤ 1 / 20 ∧
      sampleSound.amplitude_at qOps (1 / 20) = amplitudeAtSpec qOps sampleSound (1 / 20) :=
  ⟨by norm_num, amplitude_at_matches_spec qOps sampleSound (1 / 20) (by norm_num)⟩

/-! ### XOR-linear algebra for the xorshift PRNG -/

theorem xor_shiftLeft_distrib (a b k : ℕ) : (a ^^^ b) <<< k = a <<< k ^^^ b <<< k := by
  apply Nat.eq_of_testBit_eq
  intro i
  simp [Nat.testBit_shiftLeft, Nat.testBit_xor, Bool.and_xor_distrib_left]

theorem xor_shiftRight_distrib (a b k : ℕ) : (a ^^^ b) >>> k = a >>> k ^^^ b >>> k := by
  apply Nat.eq_of_testBit_eq
  intro i
  simp [Nat.testBit_shiftRight, Nat.testBit_xor]

theorem xor_mod_two_pow_distrib (a b n : ℕ) :
    (a ^^^ b) % 2 ^ n = a % 2 ^ n ^^^ b % 2 ^ n := by
  apply Nat.eq_of_testBit_eq
  intro i
  simp [Nat.testBit_mod_two_pow, Nat.testBit_xor, Bool.and_xor_distrib_left]

theorem maskShl_xor (a b : ℕ) : maskShl (a ^^^ b) = maskShl a ^^^ maskShl b := by
  unfold maskShl M32
  rw [xor_shiftLeft_distrib, xor_mod_two_pow_distrib]

theorem gmap_xor (a b : ℕ) : gmap (a ^^^ b) = gmap a ^^^ gmap b := by
  unfold gmap
  rw [maskShl_xor]
  apply Nat.eq_of_testBit_eq
  intro i
  simp only [Nat.testBit_xor]
  generalize a.testBit i = p
  generalize b.testBit i = q
  generalize (maskShl a).testBit i = u
  generalize (maskShl b).testBit i = v
  cases p <;> cases q <;> cases u <;> cases v <;> rfl

theorem hmap_xor (a b : ℕ) : hmap (a ^^^ b) = hmap a ^^^ hmap b := by
  unfold hmap
  rw [xor_shiftRight_distrib]
  apply Nat.eq_of_testBit_eq
  intro i
  simp only [Nat.testBit_xor]
  generalize a.testBit i = p
  generalize b.testBit i = q
  generalize (a >>> 19).testBit i = u
  generalize (b >>> 19).testBit i = v
  cases p <;> cases q <;> cases u <;> cases v <;> rfl

theorem qmap_xor (a b : ℕ) : qmap (a ^^^ b) = qmap a ^^^ qmap b := by
  unfold qmap
  rw [xor_shiftRight_distrib]
  apply Nat.eq_of_testBit_eq
  intro i
  simp only [Nat.testBit_xor]
  generalize a.testBit i = p
  generalize b.testBit i = q
  generalize (a >>> 8).testBit i = u
  generalize (b >>> 8).testBit i = v
  cases p <;> cases q <;> cases u <;> cases v <;> rfl

theorem maskShl_testBit (x i : ℕ) :
    (maskShl x).testBit i = (decide (11 ≤ i ∧ i < 32) && x.testBit (i - 11)) := by
  unfold maskShl M32
  rw [Nat.testBit_mod_two_pow, Nat.testBit_shiftLeft]
  by_cases h1 : 11 ≤ i <;> by_cases h2 : i < 32 <;> simp [h1, h2]

theorem maskShl_cubed (x : ℕ) : maskShl (maskShl (maskShl x)) = 0 := by
  apply Nat.eq_of_testBit_eq
  intro i
  rw [maskShl_testBit, maskShl_testBit, maskShl_testBit, Nat.zero_testBit]
  by_cases h1 : 11 ≤ i ∧ i < 32
  · by_cases h2 : 11 ≤ i - 11 ∧ i - 11 < 32
    · have : ¬(11 ≤ i - 11 - 11 ∧ i - 11 - 11 < 32) := by omega
      simp [h1, h2, this]
    · simp [h1, h2]
  · simp [h1]

theorem ginv_gmap (x : ℕ) : ginv (gmap x) = x := by
  unfold ginv gmap
  rw [maskShl_xor, maskShl_xor, maskShl_cubed]
  apply Nat.eq_of_testBit_eq
  intro i
  simp only [Nat.testBit_xor, Nat.zero_testBit]
  generalize x.testBit i = p
  generalize (maskShl x).testBit i = q
  generalize (maskShl (maskShl x)).testBit i = r
  cases p <;> cases q <;> cases r <;> rfl

theorem gmap_inj {a b : ℕ} (h : gmap a = gmap b) : a = b := by
  have := congrArg ginv h
  rwa [ginv_gmap, ginv_gmap] at this

theorem shiftRight_32_eq_zero {t : ℕ} (h : t < M32) : t >>> 32 = 0 := by
  rw [Nat.shiftRight_eq_div_pow]
  exact Nat.div_eq_of_lt h

theorem qinv_qmap {t : ℕ} (h : t < M32) : qinv (qmap t) = t := by
  have e1 : t >>> 8 >>> 8 = t >>> 16 := by rw [← Nat.shiftRight_add]
  have e2 : t >>> 8 >>> 16 = t >>> 24 := by rw [← Nat.shiftRight_add]
  have e3 : t >>> 8 >>> 24 = t >>> 32 := by rw [← Nat.shiftRight_add]
  unfold qinv qmap
  rw [xor_shiftRight_distrib, xor_shiftRight_distrib, xor_shiftRight_distrib,
      e1, e2, e3, shiftRight_32_eq_zero h]
  apply Nat.eq_of_testBit_eq
  intro i
  simp only [Nat.testBit_xor, Nat.zero_testBit]
  generalize t.testBit i = p
  generalize (t >>> 8).testBit i = q
  generalize (t >>> 16).testBit i = u
  generalize (t >>> 24).testBit i = v
  cases p <;> cases q <;> cases u <;> cases v <;> rfl

theorem qmap_inj {a b : ℕ} (ha : a < M32) (hb : b < M32) (h : qmap a = qmap b) :
    a = b := by
  have := congrArg qinv h
  rwa [qinv_qmap ha, qinv_qmap hb] at this

theorem xor_lt_M32 {a b : ℕ} (ha : a < M32) (hb : b < M32) : a ^^^ b < M32 :=
  Nat.xor_lt_two_pow ha hb

theorem gmap_lt_M32 {x : ℕ} (h : x < M32) : gmap x < M32 := by
  unfold gmap maskShl
  exact xor_lt_M32 h (Nat.mod_lt _ (by norm_num [M32]))

theorem qmap_gmap_eq_zero {x : ℕ} (hx : x < M32) (h : qmap (gmap x) = 0) : x = 0 := by
  have h0 : qmap (gmap 0) = 0 := by decide
  have := qmap_inj (gmap_lt_M32 hx) (gmap_lt_M32 (by norm_num [M32])) (h.trans h0.symm)
  exact gmap_inj this

theorem xor_cancel_pair (a p q : ℕ) : (a ^^^ p) ^^^ (a ^^^ q) = p ^^^ q := by
  apply Nat.eq_of_testBit_eq
  intro i
  simp only [Nat.testBit_xor]
  generalize a.testBit i = x
  generalize p.testBit i = y
  generalize q.testBit i = z
  cases x <;> cases y <;> cases z <;> rfl

theorem xor_exchange (a b c d : ℕ) : (a ^^^ b) ^^^ (c ^^^ d) = (a ^^^ c) ^^^ (b ^^^ d) := by
  apply Nat.eq_of_testBit_eq
  intro i
  simp only [Nat.testBit_xor]
  generalize a.testBit i = x
  generalize b.testBit i = y
  generalize c.testBit i = z
  generalize d.testBit i = u
  cases x <;> cases y <;> cases z <;> cases u <;> rfl

/-! ### Orbit lemmas for the PRNG -/

theorem stateAt_succ (s n : ℕ) :
    Random.stateAt s (n + 1) = Random.step (Random.stateAt s n) :=
  Function.iterate_succ_apply' Random.step n _

theorem stateAt_x_succ (s n : ℕ) :
    (Random.stateAt s (n + 1)).x = (Random.stateAt s n).y := by
  rw [stateAt_succ]; rfl

theorem stateAt_y_succ (s n : ℕ) :
    (Random.stateAt s (n + 1)).y = (Random.stateAt s n).z := by
  rw [stateAt_succ]; rfl

theorem stateAt_z_succ (s n : ℕ) :
    (Random.stateAt s (n + 1)).z = (Random.stateAt s n).w := by
  rw [stateAt_succ]; rfl

theorem stateAt_w_succ (s n : ℕ) :
    (Random.stateAt s (n + 1)).w
      = hmap (Random.stateAt s n).w ^^^ qmap (gmap (Random.stateAt s n).x) := by
  rw [stateAt_succ]; rfl

theorem stateAt_x_add_three (s n : ℕ) :
    (Random.stateAt s (n + 3)).x = (Random.stateAt s n).w := by
  have e1 : n + 3 = (n + 2) + 1 := rfl
  rw [e1, stateAt_x_succ]
  have e2 : n + 2 = (n + 1) + 1 := rfl
  rw [e2, stateAt_y_succ, stateAt_z_succ]

theorem stateAt_bounds {s : ℕ} (hs : s < M32) (n : ℕ) :
    (Random.stateAt s n).x < M32 ∧ (Random.stateAt s n).y < M32 ∧
    (Random.stateAt s n).z < M32 ∧ (Random.stateAt s n).w < M32 := by
  induction n with
  | zero =>
    refine ⟨hs, ?_, ?_, ?_⟩ <;> norm_num [Random.stateAt, M32]
  | succ n ih =>
    obtain ⟨hx, hy, hz, hw⟩ := ih
    rw [stateAt_succ]
    have ht : (Random.stateAt s n).x ^^^ ((Random.stateAt s n).x <<< 11 % M32) < M32 :=
      xor_lt_M32 hx (Nat.mod_lt _ (by norm_num [M32]))
    have hsr : ∀ a k : ℕ, a >>> k ≤ a := by
      intro a k
      rw [Nat.shiftRight_eq_div_pow]
      exact Nat.div_le_self _ _
    refine ⟨hy, hz, hw, ?_⟩
    show (Random.stateAt s n).w ^^^ ((Random.stateAt s n).w >>> 19) ^^^ _ < M32
    apply xor_lt_M32
    · exact xor_lt_M32 hw (lt_of_le_of_lt (hsr _ _) hw)
    · exact xor_lt_M32 ht (lt_of_le_of_lt (hsr _ _) ht)

theorem wdiff_lt_M32 {s₁ s₂ : ℕ} (hs₁ : s₁ < M32) (hs₂ : s₂ < M32) (n : ℕ) :
    wdiff s₁ s₂ n < M32 :=
  xor_lt_M32 (stateAt_bounds hs₁ n).2.2.2 (stateAt_bounds hs₂ n).2.2.2

theorem wdiff_zero_step (s₁ s₂ : ℕ) : wdiff s₁ s₂ 0 = 0 := Nat.xor_self _

theorem wdiff_one (s₁ s₂ : ℕ) : wdiff s₁ s₂ 1 = qmap (gmap (s₁ ^^^ s₂)) := by
  unfold wdiff
  have e : (1 : ℕ) = 0 + 1 := rfl
  rw [e, stateAt_w_succ, stateAt_w_succ]
  show (hmap 88675123 ^^^ qmap (gmap s₁)) ^^^ (hmap 88675123 ^^^ qmap (gmap s₂)) = _
  rw [xor_cancel_pair, ← qmap_xor, ← gmap_xor]

theorem wdiff_rec (s₁ s₂ n : ℕ) :
    wdiff s₁ s₂ (n + 4)
      = hmap (wdiff s₁ s₂ (n + 3)) ^^^ qmap (gmap (wdiff s₁ s₂ n)) := by
  unfold wdiff
  have e : n + 4 = (n + 3) + 1 := rfl
  rw [e, stateAt_w_succ s₁ (n + 3), stateAt_w_succ s₂ (n + 3),
      stateAt_x_add_three s₁ n, stateAt_x_add_three s₂ n,
      hmap_xor, gmap_xor, qmap_xor, xor_exchange]

theorem wdiff_descend {s₁ s₂ : ℕ} (hs₁ : s₁ < M32) (hs₂ : s₂ < M32) (n : ℕ)
    (h3 : wdiff s₁ s₂ (n + 3) = 0) (h4 : wdiff s₁ s₂ (n + 4) = 0) :
    wdiff s₁ s₂ n = 0 := by
  have hr := wdiff_rec s₁ s₂ n
  rw [h3, h4] at hr
  have hh : hmap 0 = 0 := by decide
  rw [hh, Nat.zero_xor] at hr
  exact qmap_gmap_eq_zero (wdiff_lt_M32 hs₁ hs₂ n) hr.symm

theorem seq_eq_stateAt (s k : ℕ) :
    Random.seq s k = ((Random.stateAt s (k + 33)).w + 0x80000000) % M32 := by
  unfold Random.seq Random.uint32val Random.new
  have e1 : Random.step^[k] (Random.step^[32]
      { x := s, y := 362436069, z := 521288629, w := 88675123 })
      = Random.stateAt s (k + 32) := by
    rw [Random.stateAt, Function.iterate_add_apply]
  rw [e1]
  have e2 : Random.step (Random.stateAt s (k + 32)) = Random.stateAt s (k + 33) := by
    rw [show k + 33 = (k + 32) + 1 from rfl, stateAt_succ s (k + 32)]
  rw [e2]

theorem seq_injective {s₁ s₂ : ℕ} (hs₁ : s₁ < M32) (hs₂ : s₂ < M32)
    (h : Random.seq s₁ = Random.seq s₂) : s₁ = s₂ := by
  have hw : ∀ k, wdiff s₁ s₂ (k + 33) = 0 := by
    intro k
    have hk := congrFun h k
    rw [seq_eq_stateAt, seq_eq_stateAt] at hk
    have b₁ := (stateAt_bounds hs₁ (k + 33)).2.2.2
    have b₂ := (stateAt_bounds hs₂ (k + 33)).2.2.2
    have : (Random.stateAt s₁ (k + 33)).w = (Random.stateAt s₂ (k + 33)).w := by
      unfold M32 at b₁ b₂ hk
      omega
    rw [wdiff, this, Nat.xor_self]
  have quad : ∀ d, d ≤ 32 →
      wdiff s₁ s₂ (33 - d) = 0 ∧ wdiff s₁ s₂ (34 - d) = 0 ∧
      wdiff s₁ s₂ (35 - d) = 0 ∧ wdiff s₁ s₂ (36 - d) = 0 := by
    intro d
    induction d with
    | zero =>
      intro _
      exact ⟨hw 0, hw 1, hw 2, hw 3⟩
    | succ d ih =>
      intro hd
      obtain ⟨ha, hb, hc, he⟩ := ih (by omega)
      have hnew : wdiff s₁ s₂ (32 - d) = 0 := by
        apply wdiff_descend hs₁ hs₂ (32 - d)
        · rw [show 32 - d + 3 = 35 - d by omega]; exact hc
        · rw [show 32 - d + 4 = 36 - d by omega]; exact he
      refine ⟨?_, ?_, ?_, ?_⟩
      · rw [show 33 - (d + 1) = 32 - d by omega]; exact hnew
      · rw [show 34 - (d + 1) = 33 - d by omega]; exact ha
      · rw [show 35 - (d + 1) = 34 - d by omega]; exact hb
      · rw [show 36 - (d + 1) = 35 - d by omega]; exact hc
  have h1 : wdiff s₁ s₂ 1 = 0 := by
    have := (quad 32 (by omega)).1
    simpa using this
  rw [wdiff_one] at h1
  have hxz : s₁ ^^^ s₂ = 0 :=
    qmap_gmap_eq_zero (xor_lt_M32 hs₁ hs₂) h1
  exact Nat.xor_eq_zero.mp hxz

/-- **C7**: the PRNG seeded with a 32-bit seed initializes `x` from the seed
and `y`, `z`, `w` from the fixed constants `362436069`, `521288629`,
`88675123`, discards exactly 32 warm-up draws; every subsequent `uint32`
call applies the xorshift recurrence
(`t = x xor (x<<11); x←y; y←z; z←w; w ← w xor (w>>19) xor t xor (t>>8)`)
and returns `w + 0x80000000` with wrapping 32-bit addition; two instances
constructed with the same seed produce identical draw sequences, and
instances constructed with different (32-bit) seeds produce different draw
sequences. -/
theorem prng_seed_determinism (s₁ s₂ : ℕ) (hs₁ : s₁ < 2 ^ 32) (hs₂ : s₂ < 2 ^ 32) :
    (Random.new s₁
      = Random.step^[32] { x := s₁, y := 362436069, z := 521288629, w := 88675123 }) ∧
    (∀ r : Random,
      Random.step r = Random.mk r.y r.z r.w
        (r.w ^^^ (r.w >>> 19) ^^^
          ((r.x ^^^ (r.x <<< 11 % 2 ^ 32)) ^^^ ((r.x ^^^ (r.x <<< 11 % 2 ^ 32)) >>> 8)))) ∧
    (∀ r : Random, Random.uint32val r = ((Random.step r).w + 0x80000000) % 2 ^ 32) ∧
    (s₁ = s₂ → Random.seq s₁ = Random.seq s₂) ∧
    (s₁ ≠ s₂ → Random.seq s₁ ≠ Random.seq s₂) := by
  refine ⟨rfl, fun r => rfl, fun r => rfl, fun he => by rw [he], fun hne hcontra => ?_⟩
  exact hne (seq_injective hs₁ hs₂ hcontra)

/-- Witness for `prng_seed_determinism` at the concrete seeds `1` and `2`. -/
theorem prng_seed_determinism_witness :
    (1 : ℕ) < 2 ^ 32 ∧ (2 : ℕ) < 2 ^ 32 ∧ Random.seq 1 ≠ Random.seq 2 :=
  ⟨by norm_num, by norm_num,
    (prng_seed_determinism 1 2 (by norm_num) (by norm_num)).2.2.2.2 (by norm_num)⟩

/-! ### Generic facts about the per-sample block runner -/

theorem set_getD_self {β : Type} (arr : List β) (j : ℕ) (d : β) :
    arr.set j (arr.getD j d) = arr := by
  by_cases h : j < arr.length
  · apply List.ext_getElem?
    intro i
    by_cases hij : i = j
    · subst hij
      rw [List.getElem?_set_self h, List.getD_eq_getElem?_getD, List.getElem?_eq_getElem h]
      rfl
    · exact List.getElem?_set_ne (fun hh => hij hh.symm)
  · rw [List.set_eq_of_length_le (le_of_not_lt h)]

theorem runSteps_eq {σ : Type} (f : ℕ → α → σ → α × σ) (s e : ℕ) (arr : List α) (st : σ) :
    runSteps f s e arr st =
      if s < e then
        runSteps f (s + 1) e (arr.set s (f s (arr.getD s 0) st).1) (f s (arr.getD s 0) st).2
      else (arr, st) := by
  rw [runSteps]
  by_cases h : s < e <;> simp [h]

theorem runSteps_stop {σ : Type} {f : ℕ → α → σ → α × σ} {s e : ℕ}
    (h : ¬ s < e) (arr : List α) (st : σ) : runSteps f s e arr st = (arr, st) := by
  rw [runSteps_eq, if_neg h]

theorem runSteps_congr_f {σ : Type} {f f' : ℕ → α → σ → α × σ}
    (hf : ∀ i v st, f i v st = f' i v st) (e : ℕ) :
    ∀ s arr (st : σ), runSteps f s e arr st = runSteps f' s e arr st := by
  have H : ∀ n s arr st, e - s ≤ n → runSteps f s e arr st = runSteps f' s e arr st := by
    intro n
    induction n with
    | zero =>
      intro s arr st hn
      have hlt : ¬ s < e := by omega
      rw [runSteps_stop hlt, runSteps_stop hlt]
    | succ n ih =>
      intro s arr st hn
      by_cases hlt : s < e
      · rw [runSteps_eq f, runSteps_eq f', if_pos hlt, if_pos hlt, hf,
          ih (s + 1) _ _ (by omega)]
      · rw [runSteps_stop hlt, runSteps_stop hlt]
  intro s arr st
  exact H (e - s) s arr st le_rfl

theorem runSteps_length {σ : Type} (f : ℕ → α → σ → α × σ) (e : ℕ) :
    ∀ s arr (st : σ), ((runSteps f s e arr st).1).length = arr.length := by
  have H : ∀ n s arr st, e - s ≤ n → ((runSteps f s e arr st).1).length = arr.length := by
    intro n
    induction n with
    | zero =>
      intro s arr st hn
      rw [runSteps_stop (by omega)]
    | succ n ih =>
      intro s arr st hn
      by_cases hlt : s < e
      · rw [runSteps_eq, if_pos hlt, ih (s + 1) _ _ (by omega), List.length_set]
      · rw [runSteps_stop hlt]
  intro s arr st
  exact H (e - s) s arr st le_rfl

theorem runSteps_frame {σ : Type} (f : ℕ → α → σ → α × σ) (e : ℕ) :
    ∀ s arr (st : σ) (j : ℕ), j < s ∨ e ≤ j →
      ((runSteps f s e arr st).1)[j]? = arr[j]? := by
  have H : ∀ n s arr st j, e - s ≤ n → j < s ∨ e ≤ j →
      ((runSteps f s e arr st).1)[j]? = arr[j]? := by
    intro n
    induction n with
    | zero =>
      intro s arr st j hn _
      rw [runSteps_stop (by omega)]
    | succ n ih =>
      intro s arr st j hn hj
      by_cases hlt : s < e
      · have hjs : j ≠ s := by omega
        rw [runSteps_eq, if_pos hlt, ih (s + 1) _ _ _ (by omega) (by omega),
          List.getElem?_set_ne (fun hh => hjs hh.symm)]
      · rw [runSteps_stop hlt]
  intro s arr st j hj
  exact H (e - s) s arr st j le_rfl hj

theorem runSteps_split {σ : Type} (f : ℕ → α → σ → α × σ) {s m e : ℕ}
    (hsm : s ≤ m) (hme : m ≤ e) :
    ∀ arr (st : σ), runSteps f s e arr st
      = runSteps f m e (runSteps f s m arr st).1 (runSteps f s m arr st).2 := by
  have H : ∀ n s', s' ≤ m → ∀ arr st, m - s' ≤ n → runSteps f s' e arr st
      = runSteps f m e (runSteps f s' m arr st).1 (runSteps f s' m arr st).2 := by
    intro n
    induction n with
    | zero =>
      intro s' hs'm arr st hn
      have hsm' : s' = m := by omega
      subst hsm'
      rw [runSteps_stop (lt_irrefl _)]
    | succ n ih =>
      intro s' hs'm arr st hn
      by_cases hlt : s' < m
      · have hlt' : s' < e := by omega
        rw [runSteps_eq f s' e, if_pos hlt', runSteps_eq f s' m, if_pos hlt,
          ih (s' + 1) (by omega) _ _ (by omega)]
      · have hsm' : s' = m := by omega
        subst hsm'
        rw [runSteps_stop (lt_irrefl _)]
  intro arr st
  exact H (m - s) s hsm arr st le_rfl

theorem runSteps_fix {σ : Type} {f : ℕ → α → σ → α × σ} {st : σ}
    (hf : ∀ i v, f i v st = (v, st)) (e : ℕ) :
    ∀ s arr, runSteps f s e arr st = (arr, st) := by
  have H : ∀ n s arr, e - s ≤ n → runSteps f s e arr st = (arr, st) := by
    intro n
    induction n with
    | zero =>
      intro s arr hn
      rw [runSteps_stop (by omega)]
    | succ n ih =>
      intro s arr hn
      by_cases hlt : s < e
      · rw [runSteps_eq, if_pos hlt, hf, set_getD_self, ih (s + 1) _ (by omega)]
      · rw [runSteps_stop hlt]
  intro s arr
  exact H (e - s) s arr le_rfl

theorem runSteps_set_outside {σ : Type} (f : ℕ → α → σ → α × σ) (e : ℕ) :
    ∀ s arr (st : σ) (p : ℕ) (v : α), p < s →
      runSteps f s e (arr.set p v) st
        = ((runSteps f s e arr st).1.set p v, (runSteps f s e arr st).2) := by
  have H : ∀ n s arr st p v, e - s ≤ n → p < s →
      runSteps f s e (arr.set p v) st
        = ((runSteps f s e arr st).1.set p v, (runSteps f s e arr st).2) := by
    intro n
    induction n with
    | zero =>
      intro s arr st p v hn hp
      rw [runSteps_stop (by omega), runSteps_stop (by omega)]
    | succ n ih =>
      intro s arr st p v hn hp
      by_cases hlt : s < e
      · have hps : p ≠ s := by omega
        rw [runSteps_eq f s e (arr.set p v), if_pos hlt,
          List.getD_eq_getElem?_getD, List.getElem?_set_ne hps,
          ← List.getD_eq_getElem?_getD,
          List.set_comm _ _ _ hps, ih (s + 1) _ _ _ _ (by omega) (by omega),
          runSteps_eq f s e arr, if_pos hlt]
      · rw [runSteps_stop hlt, runSteps_stop hlt]
  intro s arr st p v hp
  exact H (e - s) s arr st p v le_rfl hp

theorem runSteps_congr_region {σ : Type} (f : ℕ → α → σ → α × σ) (e : ℕ) :
    ∀ s arr arr' (st : σ), e ≤ arr.length → e ≤ arr'.length →
      (∀ j, s ≤ j → j < e → arr[j]? = arr'[j]?) →
      (runSteps f s e arr st).2 = (runSteps f s e arr' st).2 ∧
      (∀ j, s ≤ j → j < e →
        ((runSteps f s e arr st).1)[j]? = ((runSteps f s e arr' st).1)[j]?) := by
  have H : ∀ n s arr arr' st, e - s ≤ n → e ≤ arr.length → e ≤ arr'.length →
      (∀ j, s ≤ j → j < e → arr[j]? = arr'[j]?) →
      (runSteps f s e arr st).2 = (runSteps f s e arr' st).2 ∧
      (∀ j, s ≤ j → j < e →
        ((runSteps f s e arr st).1)[j]? = ((runSteps f s e arr' st).1)[j]?) := by
    intro n
    induction n with
    | zero =>
      intro s arr arr' st hn _ _ _
      rw [runSteps_stop (by omega), runSteps_stop (by omega)]
      exact ⟨rfl, fun j hsj hje => by omega⟩
    | succ n ih =>
      intro s arr arr' st hn hlen hlen' hagree
      by_cases hlt : s < e
      · have hv : arr.getD s 0 = arr'.getD s 0 := by
          rw [List.getD_eq_getElem?_getD, List.getD_eq_getElem?_getD,
            hagree s le_rfl hlt]
        rw [runSteps_eq f s e arr, runSteps_eq f s e arr', if_pos hlt, if_pos hlt, hv]
        have hsub := ih (s + 1) (arr.set s (f s (arr'.getD s 0) st).1)
          (arr'.set s (f s (arr'.getD s 0) st).1) (f s (arr'.getD s 0) st).2
          (by omega) (by rw [List.length_set]; exact hlen)
          (by rw [List.length_set]; exact hlen')
          (by
            intro j hsj hje
            have hjs : s ≠ j := by omega
            rw [List.getElem?_set_ne hjs, List.getElem?_set_ne hjs]
            exact hagree j (by omega) hje)
        refine ⟨hsub.1, ?_⟩
        intro j hsj hje
        by_cases hjs : j = s
        · subst hjs
          rw [runSteps_frame _ _ _ _ _ _ (Or.inl (by omega)),
            runSteps_frame _ _ _ _ _ _ (Or.inl (by omega)),
            List.getElem?_set_self (by omega), List.getElem?_set_self (by omega)]
        · exact hsub.2 j (by omega) hje
      · rw [runSteps_stop hlt, runSteps_stop hlt]
        exact ⟨rfl, fun j hsj hje => hagree j hsj hje⟩
  intro s arr arr' st hlen hlen' hagree
  exact H (e - s) s arr arr' st le_rfl hlen hlen' hagree

theorem runSteps_fuse {σ τ : Type} (f : ℕ → α → σ → α × σ) (g : ℕ → α → τ → α × τ)
    (e : ℕ) :
    ∀ s arr (st : σ) (tt : τ), e ≤ arr.length →
      runSteps (fuseSteps f g) s e arr (st, tt)
        = ((runSteps g s e (runSteps f s e arr st).1 tt).1,
           ((runSteps f s e arr st).2,
            (runSteps g s e (runSteps f s e arr st).1 tt).2)) := by
  have H : ∀ n s arr st tt, e - s ≤ n → e ≤ arr.length →
      runSteps (fuseSteps f g) s e arr (st, tt)
        = ((runSteps g s e (runSteps f s e arr st).1 tt).1,
           ((runSteps f s e arr st).2,
            (runSteps g s e (runSteps f s e arr st).1 tt).2)) := by
    intro n
    induction n with
    | zero =>
      intro s arr st tt hn _
      rw [runSteps_stop (by omega), runSteps_stop (by omega), runSteps_stop (by omega)]
    | succ n ih =>
      intro s arr st tt hn hlen
      by_cases hlt : s < e
      · have hslen : s < arr.length := lt_of_lt_of_le hlt hlen
        rw [runSteps_eq (fuseSteps f g) s e arr, if_pos hlt]
        show runSteps (fuseSteps f g) (s + 1) e
          (arr.set s (g s (f s (arr.getD s 0) st).1 tt).1)
          ((f s (arr.getD s 0) st).2, (g s (f s (arr.getD s 0) st).1 tt).2) = _
        rw [ih (s + 1) _ _ _ (by omega) (by rw [List.length_set]; exact hlen)]
        have hsetset : arr.set s (g s (f s (arr.getD s 0) st).1 tt).1
            = (arr.set s (f s (arr.getD s 0) st).1).set s
                (g s (f s (arr.getD s 0) st).1 tt).1 := by
          rw [List.set_set]
        rw [hsetset,
          runSteps_set_outside f e (s + 1) _ _ s _ (by omega)]
        have hF : runSteps f s e arr st
            = runSteps f (s + 1) e (arr.set s (f s (arr.getD s 0) st).1)
                (f s (arr.getD s 0) st).2 := by
          rw [runSteps_eq f s e arr, if_pos hlt]
        have hFs : (runSteps f s e arr st).1[s]? = some (f s (arr.getD s 0) st).1 := by
          rw [hF, runSteps_frame _ _ _ _ _ _ (Or.inl (by omega)),
            List.getElem?_set_self hslen]
        have hG : runSteps g s e (runSteps f s e arr st).1 tt
            = runSteps g (s + 1) e
                ((runSteps f s e arr st).1.set s (g s (f s (arr.getD s 0) st).1 tt).1)
                (g s (f s (arr.getD s 0) st).1 tt).2 := by
          rw [runSteps_eq g s e, if_pos hlt, List.getD_eq_getElem?_getD, hFs,
            Option.getD_some]
        rw [hG, hF]
      · rw [runSteps_stop hlt, runSteps_stop hlt, runSteps_stop hlt]
  intro s arr st tt hlen
  exact H (e - s) s arr st tt le_rfl hlen

theorem runSteps_pointwise (f : ℕ → α → α) (e : ℕ) :
    ∀ s arr (u : Unit) (j : ℕ),
      ((runSteps (fun i v (x : Unit) => (f i v, x)) s e arr u).1)[j]?
        = if s ≤ j ∧ j < e then arr[j]?.map (f j) else arr[j]? := by
  have H : ∀ n s arr u j, e - s ≤ n →
      ((runSteps (fun i v (x : Unit) => (f i v, x)) s e arr u).1)[j]?
        = if s ≤ j ∧ j < e then arr[j]?.map (f j) else arr[j]? := by
    intro n
    induction n with
    | zero =>
      intro s arr u j hn
      rw [runSteps_stop (by omega), if_neg (by omega)]
    | succ n ih =>
      intro s arr u j hn
      by_cases hlt : s < e
      · rw [runSteps_eq, if_pos hlt, ih (s + 1) _ _ _ (by omega)]
        by_cases hjs : j = s
        · subst hjs
          rw [if_neg (by omega), if_pos ⟨le_rfl, hlt⟩]
          by_cases hjlen : j < arr.length
          · rw [List.getElem?_set_self hjlen, List.getElem?_eq_getElem hjlen,
              List.getD_eq_getElem?_getD, List.getElem?_eq_getElem hjlen]
            rfl
          · rw [List.set_eq_of_length_le (le_of_not_lt hjlen),
              List.getElem?_eq_none (le_of_not_lt hjlen)]
            rfl
        · rw [List.getElem?_set_ne (fun hh => hjs hh.symm)]
          by_cases hcond : s ≤ j ∧ j < e
          · rw [if_pos (by omega), if_pos hcond]
          · rw [if_neg (by omega), if_neg hcond]
      · rw [runSteps_stop hlt, if_neg (by omega)]
  intro s arr u j
  exact H (e - s) s arr u j le_rfl

theorem runSteps_value_id {σ : Type} {f : ℕ → α → σ → α × σ}
    (hf : ∀ i v st, (f i v st).1 = v) (e : ℕ) :
    ∀ s arr (st : σ), (runSteps f s e arr st).1 = arr := by
  have H : ∀ n s arr st, e - s ≤ n → (runSteps f s e arr st).1 = arr := by
    intro n
    induction n with
    | zero =>
      intro s arr st hn
      rw [runSteps_stop (by omega)]
    | succ n ih =>
      intro s arr st hn
      by_cases hlt : s < e
      · rw [runSteps_eq, if_pos hlt, hf, set_getD_self, ih (s + 1) _ _ (by omega)]
      · rw [runSteps_stop hlt]
  intro s arr st
  exact H (e - s) s arr st le_rfl

/-! ### Each stage's `run` as a per-sample pass of its effective step -/

theorem Envelope_run_eq (ops : TransOps α) (s : Sound α) (arr : List α) (a b : ℕ) :
    Envelope.run ops s arr a b = (runSteps (effEnvStep ops s) a b arr ()).1 := by
  unfold Envelope.run
  by_cases hc : s.attack = 0 ∧ s.sustain_punch = 0 ∧ s.decay = 0 ∧ s.tremolo_depth = 0
  · rw [if_pos hc, runSteps_fix (fun i v => by rw [effEnvStep, if_pos hc]) b a arr]
  · rw [if_neg hc, runSteps_congr_f
      (show ∀ i v st, envStep ops s i v st = effEnvStep ops s i v st from
        fun i v st => by rw [effEnvStep, if_neg hc]) b a arr ()]

theorem flanger_run_some (s : Sound α) (n bl e : ℕ) :
    ∀ a arr buf pos, buf.length = bl →
      runSteps (effFlangerStep s n) a e arr ⟨some buf, pos⟩
        = ((runSteps (flangerStep s n bl) a e arr (buf, pos)).1,
           ⟨some (runSteps (flangerStep s n bl) a e arr (buf, pos)).2.1,
            (runSteps (flangerStep s n bl) a e arr (buf, pos)).2.2⟩) := by
  have H : ∀ m a arr buf pos, e - a ≤ m → buf.length = bl →
      runSteps (effFlangerStep s n) a e arr ⟨some buf, pos⟩
        = ((runSteps (flangerStep s n bl) a e arr (buf, pos)).1,
           ⟨some (runSteps (flangerStep s n bl) a e arr (buf, pos)).2.1,
            (runSteps (flangerStep s n bl) a e arr (buf, pos)).2.2⟩) := by
    intro m
    induction m with
    | zero =>
      intro a arr buf pos hm hbl
      rw [runSteps_stop (by omega), runSteps_stop (by omega)]
    | succ m ih =>
      intro a arr buf pos hm hbl
      by_cases hlt : a < e
      · rw [runSteps_eq (effFlangerStep s n) a e arr, if_pos hlt,
          runSteps_eq (flangerStep s n bl) a e arr, if_pos hlt]
        show runSteps (effFlangerStep s n) (a + 1) e
          (arr.set a (flangerStep s n buf.length a (arr.getD a 0) (buf, pos)).1)
          ⟨some (flangerStep s n buf.length a (arr.getD a 0) (buf, pos)).2.1,
           (flangerStep s n buf.length a (arr.getD a 0) (buf, pos)).2.2⟩ = _
        rw [hbl]
        show runSteps (effFlangerStep s n) (a + 1) e
          (arr.set a (flangerStep s n bl a (arr.getD a 0) (buf, pos)).1)
          ⟨some (buf.set pos (arr.getD a 0)), (pos + 1) % bl⟩ = _
        rw [ih (a + 1) _ _ _ (by omega) (by rw [List.length_set]; exact hbl)]
        rfl
      · rw [runSteps_stop hlt, runSteps_stop hlt]
  intro a arr buf pos hbl
  exact H (e - a) a arr buf pos le_rfl hbl

theorem Flanger_run_eq (s : Sound α) (arr : List α) (a b : ℕ) (fs : FlangerState α) :
    Flanger.run s arr a b fs = runSteps (effFlangerStep s arr.length) a b arr fs := by
  rcases fs with ⟨buffer, pos⟩
  cases buffer with
  | none =>
    exact (runSteps_fix
      (show ∀ i v, effFlangerStep s arr.length i v ⟨none, pos⟩ = (v, ⟨none, pos⟩) from
        fun i v => rfl) b a arr).symm
  | some buf =>
    show (let r := runSteps (flangerStep s arr.length buf.length) a b arr (buf, pos)
      ((r.1, { buffer := some r.2.1, buffer_pos := r.2.2 }) : List α × FlangerState α)) = _
    rw [flanger_run_some s arr.length buf.length b a arr buf pos rfl]

theorem BitCrush_run_eq (ops : TransOps α) (s : Sound α) (arr : List α) (a b : ℕ) :
    BitCrush.run ops s arr a b = (runSteps (effBitCrushStep ops s arr.length) a b arr ()).1 := by
  unfold BitCrush.run
  by_cases hc : s.bit_crush = 0 ∧ s.bit_crush_sweep = 0
  · rw [if_pos hc, runSteps_fix (fun i v => by rw [effBitCrushStep, if_pos hc]) b a arr]
  · rw [if_neg hc, runSteps_congr_f
      (show ∀ i v st, bitCrushStep ops s arr.length i v st
          = effBitCrushStep ops s arr.length i v st from
        fun i v st => by rw [effBitCrushStep, if_neg hc]) b a arr ()]

theorem LowPass_run_eq (ops : TransOps α) (s : Sound α) (arr : List α) (a b : ℕ)
    (prev : α) :
    LowPass.run ops s arr a b prev = runSteps (effLowPassStep ops s arr.length) a b arr prev := by
  unfold LowPass.run
  by_cases hc : s.low_pass_cutoff ≥ s.sample_rate / 2 ∧
      s.low_pass_cutoff + s.low_pass_cutoff_sweep ≥ s.sample_rate / 2
  · rw [if_pos hc, runSteps_fix (fun i v => by rw [effLowPassStep, if_pos hc]) b a arr]
  · rw [if_neg hc, runSteps_congr_f
      (show ∀ i v st, lowPassStep ops s arr.length i v st
          = effLowPassStep ops s arr.length i v st from
        fun i v st => by rw [effLowPassStep, if_neg hc]) b a arr prev]

theorem HighPass_run_eq (ops : TransOps α) (s : Sound α) (arr : List α) (a b : ℕ)
    (st : α × α) :
    HighPass.run ops s arr a b st = runSteps (effHighPassStep ops s arr.length) a b arr st := by
  unfold HighPass.run
  by_cases hc : s.high_pass_cutoff ≤ 0 ∧ s.high_pass_cutoff + s.high_pass_cutoff_sweep ≤ 0
  · rw [if_pos hc, runSteps_fix (fun i v => by rw [effHighPassStep, if_pos hc]) b a arr]
  · rw [if_neg hc, runSteps_congr_f
      (show ∀ i v stx, highPassStep ops s arr.length i v stx
          = effHighPassStep ops s arr.length i v stx from
        fun i v stx => by rw [effHighPassStep, if_neg hc]) b a arr st]

theorem Compress_run_eq (ops : TransOps α) (s : Sound α) (arr : List α) (a b : ℕ) :
    Compress.run ops s arr a b = (runSteps (effCompressStep ops s) a b arr ()).1 := by
  unfold Compress.run
  by_cases hc : s.compression = 1
  · rw [if_pos hc, runSteps_fix (fun i v => by rw [effCompressStep, if_pos hc]) b a arr]
  · rw [if_neg hc, runSteps_congr_f
      (show ∀ i v st, compressStep ops s i v st = effCompressStep ops s i v st from
        fun i v st => by rw [effCompressStep, if_neg hc]) b a arr ()]

theorem normAcc_value_id (s : Sound α) (b a : ℕ) (arr : List α) (m : α) :
    (runSteps (effNormAccStep s) a b arr m).1 = arr :=
  runSteps_value_id (fun i v st => rfl) b a arr m

theorem normAcc_state (s : Sound α) (hnorm : s.normalization = true) (b : ℕ) :
    ∀ a arr (m : α), (runSteps (effNormAccStep s) a b arr m).2 = normMaxAcc arr a b m := by
  have H : ∀ n a arr m, b - a ≤ n →
      (runSteps (effNormAccStep s) a b arr m).2 = normMaxAcc arr a b m := by
    intro n
    induction n with
    | zero =>
      intro a arr m hn
      rw [runSteps_stop (by omega), normMaxAcc]
      rw [dif_neg (by omega)]
    | succ n ih =>
      intro a arr m hn
      by_cases hlt : a < b
      · rw [runSteps_eq, if_pos hlt, normMaxAcc, dif_pos hlt]
        show (runSteps (effNormAccStep s) (a + 1) b
          (arr.set a (arr.getD a 0)) (if s.normalization = true then max m |arr.getD a 0| else m)).2 = _
        rw [set_getD_self, if_pos hnorm, ih (a + 1) _ _ (by omega)]
      · rw [runSteps_stop hlt, normMaxAcc, dif_neg hlt]
  intro a arr m
  exact H (b - a) a arr m le_rfl

theorem Normalize_run_eq (s : Sound α) (arr : List α) (a b : ℕ) (m : α) :
    Normalize.run s arr a b m
      = (if s.normalization = true ∧ b = arr.length then
          (runSteps (effNormAccStep s) a b arr m).1.map
            (fun v => v * (1 / (runSteps (effNormAccStep s) a b arr m).2))
        else (runSteps (effNormAccStep s) a b arr m).1,
        (runSteps (effNormAccStep s) a b arr m).2) := by
  unfold Normalize.run
  by_cases hnorm : s.normalization = true
  · rw [normAcc_value_id, normAcc_state s hnorm,
      if_neg (show ¬s.normalization = false by simp [hnorm])]
    show (if b = arr.length then arr.map (fun v => v * (1 / normMaxAcc arr a b m)) else arr,
      normMaxAcc arr a b m) = _
    by_cases hend : b = arr.length
    · rw [if_pos hend, if_pos ⟨hnorm, hend⟩]
    · rw [if_neg hend, if_neg (fun hh => hend hh.2)]
  · have hfalse : s.normalization = false := by
      cases hx : s.normalization
      · rfl
      · exact absurd hx hnorm
    rw [if_pos hfalse,
      runSteps_fix
        (show ∀ i v, effNormAccStep s i v m = (v, m) from
          fun i v => by simp [effNormAccStep, hfalse]) b a arr,
      if_neg (fun hh => hnorm hh.1)]

theorem Amplify_run_getElem (s : Sound α) (arr : List α) (a b j : ℕ) :
    (Amplify.run s arr a b)[j]?
      = if a ≤ j ∧ j < b then arr[j]?.map (fun v => v * (s.amplification / 100))
        else arr[j]? := by
  unfold Amplify.run
  by_cases hf : s.amplification / 100 = 1
  · rw [if_pos hf]
    by_cases hcond : a ≤ j ∧ j < b
    · rw [if_pos hcond, hf]
      cases arr[j]? <;> simp
    · rw [if_neg hcond]
  · rw [if_neg hf,
      runSteps_congr_f
        (show ∀ i v (x : Unit), amplifyStep s i v x
            = ((fun _ w => w * (s.amplification / 100)) i v, x) from
          fun i v st => rfl) b a arr (),
      runSteps_pointwise (fun _ w => w * (s.amplification / 100)) b a arr () j]

theorem Amplify_run_length (s : Sound α) (arr : List α) (a b : ℕ) :
    (Amplify.run s arr a b).length = arr.length := by
  unfold Amplify.run
  by_cases hf : s.amplification / 100 = 1
  · rw [if_pos hf]
  · rw [if_neg hf, runSteps_length]

/-- A block through the nine sequential stages equals one pass of the fused
per-sample step, followed by Normalize's deferred whole-buffer rescale (on
the final block only) and the Amplify pass. -/
theorem runBlock_eq_mega (ops : TransOps α) (s : Sound α) (arr : List α) (a b : ℕ)
    (ps : PipeState α) (hb : b ≤ arr.length) :
    runBlock ops s arr a b ps
      = (Amplify.run s
          (if s.normalization = true ∧ b = arr.length then
            (runSteps (megaStep ops s arr.length) a b arr (bigOf ps)).1.map
              (fun v => v *
                (1 / (runSteps (megaStep ops s arr.length) a b arr (bigOf ps)).2.2))
          else (runSteps (megaStep ops s arr.length) a b arr (bigOf ps)).1) a b,
         psOf (runSteps (megaStep ops s arr.length) a b arr (bigOf ps)).2) := by
  have hA2 : ((runSteps (effEnvStep ops s) a b
      (runSteps (generatorStep ops s) a b arr ps.gen).1 ()).1).length = arr.length := by
    rw [runSteps_length, runSteps_length]
  have hA3 : ((runSteps (effFlangerStep s arr.length) a b
      (runSteps (effEnvStep ops s) a b
        (runSteps (generatorStep ops s) a b arr ps.gen).1 ()).1 ps.flanger).1).length
      = arr.length := by
    rw [runSteps_length]
    exact hA2
  have hA4 : ((runSteps (effBitCrushStep ops s arr.length) a b
      (runSteps (effFlangerStep s arr.length) a b
        (runSteps (effEnvStep ops s) a b
          (runSteps (generatorStep ops s) a b arr ps.gen).1 ()).1 ps.flanger).1 ()).1).length
      = arr.length := by
    rw [runSteps_length]
    exact hA3
  have hA5 : ((runSteps (effLowPassStep ops s arr.length) a b
      (runSteps (effBitCrushStep ops s arr.length) a b
        (runSteps (effFlangerStep s arr.length) a b
          (runSteps (effEnvStep ops s) a b
            (runSteps (generatorStep ops s) a b arr ps.gen).1 ()).1 ps.flanger).1 ()).1
      ps.low_pass_prev).1).length = arr.length := by
    rw [runSteps_length]
    exact hA4
  have hA6 : ((runSteps (effHighPassStep ops s arr.length) a b
      (runSteps (effLowPassStep ops s arr.length) a b
        (runSteps (effBitCrushStep ops s arr.length) a b
          (runSteps (effFlangerStep s arr.length) a b
            (runSteps (effEnvStep ops s) a b
              (runSteps (generatorStep ops s) a b arr ps.gen).1 ()).1 ps.flanger).1 ()).1
        ps.low_pass_prev).1
      (ps.high_pass_prev_in, ps.high_pass_prev_out)).1).length = arr.length := by
    rw [runSteps_length]
    exact hA5
  have hA7 : ((runSteps (effCompressStep ops s) a b
      (runSteps (effHighPassStep ops s arr.length) a b
        (runSteps (effLowPassStep ops s arr.length) a b
          (runSteps (effBitCrushStep ops s arr.length) a b
            (runSteps (effFlangerStep s arr.length) a b
              (runSteps (effEnvStep ops s) a b
                (runSteps (generatorStep ops s) a b arr ps.gen).1 ()).1 ps.flanger).1 ()).1
          ps.low_pass_prev).1
        (ps.high_pass_prev_in, ps.high_pass_prev_out)).1 ()).1).length = arr.length := by
    rw [runSteps_length]
    exact hA6
  simp only [runBlock, Generator.run]
  rw [Envelope_run_eq, Flanger_run_eq, hA2, BitCrush_run_eq, hA3, LowPass_run_eq, hA4,
    HighPass_run_eq, hA5, Compress_run_eq, Normalize_run_eq, hA7]
  simp only [megaStep, bigOf, psOf]
  rw [runSteps_fuse _ _ b a arr _ _ hb]
  rw [runSteps_fuse _ _ b a arr _ _ hb]
  rw [runSteps_fuse _ _ b a arr _ _ hb]
  rw [runSteps_fuse _ _ b a arr _ _ hb]
  rw [runSteps_fuse _ _ b a arr _ _ hb]
  rw [runSteps_fuse _ _ b a arr _ _ hb]
  rw [runSteps_fuse _ _ b a arr _ _ hb]

/-! ### The canonical block-size-independent run -/

theorem bigOf_psOf (b : BigState α) : bigOf (psOf b) = b := rfl

theorem psOf_bigOf (p : PipeState α) : psOf (bigOf p) = p := rfl

theorem canonicalRun_length (ops : TransOps α) (s : Sound α) (k : ℕ) :
    (canonicalRun ops s k).1.length = numSamples s := by
  unfold canonicalRun arr0
  rw [runSteps_length, List.length_replicate]

theorem canonicalRun_ext (ops : TransOps α) (s : Sound α) {k k' : ℕ} (h : k ≤ k') :
    canonicalRun ops s k'
      = runSteps (megaStep ops s (numSamples s)) k k'
          (canonicalRun ops s k).1 (canonicalRun ops s k).2 := by
  unfold canonicalRun
  rw [← runSteps_split (megaStep ops s (numSamples s)) (Nat.zero_le k) h]

theorem canonicalRun_stable (ops : TransOps α) (s : Sound α) {k k' j : ℕ}
    (h : k ≤ k') (hj : j < k) :
    (canonicalRun ops s k').1[j]? = (canonicalRun ops s k).1[j]? := by
  rw [canonicalRun_ext ops s h, runSteps_frame _ _ _ _ _ _ (Or.inl hj)]

theorem canonicalRun_untouched (ops : TransOps α) (s : Sound α) {k j : ℕ} (hj : k ≤ j) :
    (canonicalRun ops s k).1[j]? = (arr0 s)[j]? := by
  unfold canonicalRun
  rw [runSteps_frame _ _ _ _ _ _ (Or.inr hj)]

theorem arr0_getElem (s : Sound α) (j : ℕ) :
    (arr0 s)[j]? = if j < numSamples s then some 0 else none := by
  unfold arr0
  rw [List.getElem?_replicate]

theorem canonicalRun_zero (ops : TransOps α) (s : Sound α) :
    canonicalRun ops s 0 = (arr0 s, bigOf (PipeState.init s)) := by
  unfold canonicalRun
  rw [runSteps_stop (by omega)]

/-- `Synth::tick` on a finished synth returns immediately. -/
theorem tick_done (ops : TransOps α) (s : Sound α) (st : Synth α)
    (h : st.arr.length ≤ st.start_sample) : Synth.tick ops s st = (st, true) := by
  simp only [Synth.tick]
  rw [if_pos (by omega)]

theorem runTicks_stable (ops : TransOps α) (s : Sound α) :
    ∀ (t : ℕ) (st : Synth α), st.arr.length ≤ st.start_sample →
      Synth.runTicks ops s st t = st := by
  intro t
  induction t with
  | zero => intro st h; rfl
  | succ t ih =>
    intro st h
    show Synth.runTicks ops s (Synth.tick ops s st).1 t = st
    rw [tick_done ops s st h]
    exact ih st h

/-- One mid-run `tick` preserves the run invariant: the cursor advances to
`min(k + blockSize, n)`, the pipeline state stays in lockstep with the
canonical fused run, already-processed samples are the canonical samples
times the amplification factor, and — on the tick that completes the
buffer — the buffer becomes the canonical final buffer. -/
theorem tick_advance (ops : TransOps α) (s : Sound α) (bs k : ℕ) (st : Synth α)
    (hk : k < numSamples s)
    (hlen : st.arr.length = numSamples s)
    (hstart : st.start_sample = k)
    (hbsz : st.block_size = bs)
    (hps : st.ps = psOf (canonicalRun ops s k).2)
    (harr : ∀ j : ℕ, st.arr[j]? = if j < k
        then ((canonicalRun ops s k).1[j]?).map (fun v => v * (s.amplification / 100))
        else (canonicalRun ops s k).1[j]?) :
    (Synth.tick ops s st).1.arr.length = numSamples s ∧
    (Synth.tick ops s st).1.start_sample = min (k + bs) (numSamples s) ∧
    (Synth.tick ops s st).1.block_size = bs ∧
    (Synth.tick ops s st).1.ps
      = psOf (canonicalRun ops s (min (k + bs) (numSamples s))).2 ∧
    (min (k + bs) (numSamples s) < numSamples s →
      ∀ j : ℕ, (Synth.tick ops s st).1.arr[j]?
        = if j < min (k + bs) (numSamples s)
          then ((canonicalRun ops s (min (k + bs) (numSamples s))).1[j]?).map
            (fun v => v * (s.amplification / 100))
          else (canonicalRun ops s (min (k + bs) (numSamples s))).1[j]?) ∧
    (min (k + bs) (numSamples s) = numSamples s →
      (Synth.tick ops s st).1.arr = finalArr ops s) := by
  have htick : Synth.tick ops s st
      = ({ arr := (runBlock ops s st.arr st.start_sample
            (min (st.start_sample + st.block_size) st.arr.length) st.ps).1,
           start_sample := min (st.start_sample + st.block_size) st.arr.length,
           block_size := st.block_size,
           ps := (runBlock ops s st.arr st.start_sample
            (min (st.start_sample + st.block_size) st.arr.length) st.ps).2 },
         decide (min (st.start_sample + st.block_size) st.arr.length ≥ st.arr.length)) := by
    simp only [Synth.tick]
    rw [if_neg (by omega)]
  rw [htick]
  simp only
  rw [hlen, hstart, hbsz, hps]
  set e := min (k + bs) (numSamples s) with hedef
  have hke : k ≤ e := by omega
  have hen : e ≤ numSamples s := by omega
  have hbe : e ≤ st.arr.length := by omega
  rw [runBlock_eq_mega ops s st.arr k e (psOf (canonicalRun ops s k).2) hbe, hlen,
    bigOf_psOf]
  set M := runSteps (megaStep ops s (numSamples s)) k e st.arr (canonicalRun ops s k).2
    with hMdef
  have hreg := runSteps_congr_region (megaStep ops s (numSamples s)) e k st.arr
    (canonicalRun ops s k).1 (canonicalRun ops s k).2
    (by omega) (by rw [canonicalRun_length]; omega)
    (by
      intro j hkj hje
      rw [harr j, if_neg (by omega)])
  have hsplit : runSteps (megaStep ops s (numSamples s)) k e
      (canonicalRun ops s k).1 (canonicalRun ops s k).2 = canonicalRun ops s e :=
    (canonicalRun_ext ops s hke).symm
  have hM2 : M.2 = (canonicalRun ops s e).2 := by
    rw [hMdef, hreg.1, hsplit]
  have hM1 : ∀ j, k ≤ j → j < e → M.1[j]? = (canonicalRun ops s e).1[j]? := by
    intro j h1 h2
    rw [hMdef, hreg.2 j h1 h2, hsplit]
  have hMframe : ∀ j, j < k ∨ e ≤ j → M.1[j]? = st.arr[j]? := by
    intro j hj
    rw [hMdef, runSteps_frame _ _ _ _ _ _ hj]
  have hMlen : M.1.length = numSamples s := by
    rw [hMdef, runSteps_length, hlen]
  have hMnone : ∀ j, numSamples s ≤ j → M.1[j]? = none := by
    intro j hj
    rw [hMframe j (Or.inr (by omega)), harr j, if_neg (by omega),
      canonicalRun_untouched ops s (by omega), arr0_getElem, if_neg (by omega)]
  have hcond : (s.normalization = true ∧ e = numSamples s)
      ↔ (s.normalization = true ∧ e = numSamples s) := Iff.rfl
  refine ⟨?_, rfl, rfl, ?_, ?_, ?_⟩
  · -- length
    rw [Amplify_run_length]
    by_cases hc : s.normalization = true ∧ e = numSamples s
    · rw [if_pos hc, List.length_map, hMlen]
    · rw [if_neg hc, hMlen]
  · -- pipeline state
    rw [hM2]
  · -- mid-run invariant
    intro hlt j
    have hcfalse : ¬(s.normalization = true ∧ e = numSamples s) := by
      intro hc
      omega
    rw [if_neg hcfalse, Amplify_run_getElem]
    by_cases hj1 : k ≤ j ∧ j < e
    · rw [if_pos hj1, if_pos hj1.2, hM1 j hj1.1 hj1.2]
    · rw [if_neg hj1]
      by_cases hj2 : j < k
      · rw [hMframe j (Or.inl hj2), harr j, if_pos hj2, if_pos (by omega),
          canonicalRun_stable ops s hke hj2]
      · have hje : e ≤ j := by omega
        rw [hMframe j (Or.inr hje), harr j, if_neg hj2, if_neg (by omega),
          canonicalRun_untouched ops s (show (k : ℕ) ≤ j by omega),
          canonicalRun_untouched ops s hje]
  · -- final tick
    intro hfin
    have hfinArrLen : (finalArr ops s).length = numSamples s := by
      unfold finalArr
      rw [List.length_map, canonicalRun_length]
    by_cases hnorm : s.normalization = true
    · rw [if_pos ⟨hnorm, hfin⟩]
      apply List.ext_getElem?
      intro j
      have hnf : normFactor ops s = 1 / finalMax ops s := by
        unfold normFactor
        rw [if_pos hnorm]
      have hM22 : M.2.2 = finalMax ops s := by
        rw [hM2, hfin]
        rfl
      rw [Amplify_run_getElem, hM22]
      unfold finalArr
      rw [List.getElem?_map, hnf]
      by_cases hj1 : k ≤ j ∧ j < e
      · rw [if_pos hj1, List.getElem?_map, hM1 j hj1.1 hj1.2, hfin]
        cases (canonicalRun ops s (numSamples s)).1[j]? <;> rfl
      · by_cases hj2 : j < k
        · rw [if_neg hj1, List.getElem?_map, hMframe j (Or.inl hj2), harr j,
            if_pos hj2, canonicalRun_stable ops s (le_of_lt hk) hj2]
          cases (canonicalRun ops s k).1[j]? with
          | none => rfl
          | some v =>
            show some (v * (s.amplification / 100) * (1 / finalMax ops s))
              = some (v * (1 / finalMax ops s) * (s.amplification / 100))
            rw [mul_right_comm]
        · have hje : numSamples s ≤ j := by omega
          rw [if_neg hj1, List.getElem?_map, hMnone j hje,
            canonicalRun_untouched ops s hje, arr0_getElem, if_neg (by omega)]
          rfl
    · rw [if_neg (fun hc => hnorm hc.1)]
      apply List.ext_getElem?
      intro j
      have hnf : normFactor ops s = 1 := by
        unfold normFactor
        rw [if_neg hnorm]
      rw [Amplify_run_getElem]
      unfold finalArr
      rw [List.getElem?_map, hnf]
      by_cases hj1 : k ≤ j ∧ j < e
      · rw [if_pos hj1, hM1 j hj1.1 hj1.2, hfin]
        cases (canonicalRun ops s (numSamples s)).1[j]? with
        | none => rfl
        | some v =>
          show some (v * (s.amplification / 100)) = some (v * 1 * (s.amplification / 100))
          rw [mul_one]
      · by_cases hj2 : j < k
        · rw [if_neg hj1, hMframe j (Or.inl hj2), harr j, if_pos hj2,
            canonicalRun_stable ops s (le_of_lt hk) hj2]
          cases (canonicalRun ops s k).1[j]? with
          | none => rfl
          | some v =>
            show some (v * (s.amplification / 100)) = some (v * 1 * (s.amplification / 100))
            rw [mul_one]
        · have hje : numSamples s ≤ j := by omega
          rw [if_neg hj1, hMnone j hje,
            canonicalRun_untouched ops s hje, arr0_getElem, if_neg (by omega)]
          rfl

theorem runTicks_completes (ops : TransOps α) (s : Sound α) (bs : ℕ) :
    ∀ (t k : ℕ) (st : Synth α),
      k < numSamples s →
      st.arr.length = numSamples s →
      st.start_sample = k →
      st.block_size = bs →
      st.ps = psOf (canonicalRun ops s k).2 →
      (∀ j : ℕ, st.arr[j]? = if j < k
        then ((canonicalRun ops s k).1[j]?).map (fun v => v * (s.amplification / 100))
        else (canonicalRun ops s k).1[j]?) →
      numSamples s ≤ k + t * bs →
      (Synth.runTicks ops s st t).arr = finalArr ops s := by
  intro t
  induction t with
  | zero =>
    intro k st hk _ _ _ _ _ hfuel
    omega
  | succ t ih =>
    intro k st hk hlen hstart hbsz hps harr hfuel
    obtain ⟨hlen', hstart', hbsz', hps', hmid, hfin⟩ :=
      tick_advance ops s bs k st hk hlen hstart hbsz hps harr
    show (Synth.runTicks ops s (Synth.tick ops s st).1 t).arr = finalArr ops s
    by_cases he : min (k + bs) (numSamples s) = numSamples s
    · rw [runTicks_stable ops s t _ (by rw [hlen', hstart']; omega)]
      exact hfin he
    · have hlt : min (k + bs) (numSamples s) < numSamples s := by omega
      have hexp : k + (t + 1) * bs = (k + bs) + t * bs := by ring
      exact ih (min (k + bs) (numSamples s)) (Synth.tick ops s st).1 hlt hlen' hstart'
        hbsz' hps' (hmid hlt) (by omega)

theorem numSamples_pos (s : Sound α) : 0 < numSamples s :=
  lt_of_lt_of_le Nat.zero_lt_one (le_max_left _ _)

theorem runBlock_length (ops : TransOps α) (s : Sound α) (arr : List α) (a b : ℕ)
    (ps : PipeState α) (hb : b ≤ arr.length) :
    (runBlock ops s arr a b ps).1.length = arr.length := by
  rw [runBlock_eq_mega ops s arr a b ps hb, Amplify_run_length]
  by_cases hc : s.normalization = true ∧ b = arr.length
  · rw [if_pos hc, List.length_map, runSteps_length]
  · rw [if_neg hc, runSteps_length]

/-- For every positive block size the fully-ticked buffer is the canonical
block-size-independent buffer. -/
theorem generate_eq_finalArr (ops : TransOps α) (s : Sound α) (bs : ℕ) (hbs : 0 < bs) :
    Synth.generate ops s (Synth.newWith s bs) = finalArr ops s := by
  show (Synth.runTicks ops s (Synth.newWith s bs) (Synth.newWith s bs).arr.length).arr
    = finalArr ops s
  have hlen : (Synth.newWith s bs).arr.length = numSamples s := List.length_replicate _ _
  rw [hlen]
  have hmul : numSamples s * 1 ≤ numSamples s * bs := Nat.mul_le_mul_left _ hbs
  apply runTicks_completes ops s bs (numSamples s) 0 (Synth.newWith s bs)
    (numSamples_pos s) hlen rfl rfl
  · rw [canonicalRun_zero, psOf_bigOf]
    rfl
  · intro j
    rw [canonicalRun_zero]
    simp only
    rw [if_neg (by omega)]
    rfl
  · omega

/-- **C1**: for every parameter set and every choice of positive block size
(including a single block covering the whole buffer), running the Synth to
completion via repeated `tick()` produces a buffer identical, value for
value, to the buffer produced with any other block size; in particular
`Synth::generate()` with the default block size 10240 equals a single-block
run (block size `numSamples`, which covers the whole buffer in one tick). -/
theorem block_invariance (ops : TransOps α) (s : Sound α) (b₁ b₂ : ℕ)
    (h₁ : 0 < b₁) (h₂ : 0 < b₂) :
    Synth.generate ops s (Synth.newWith s b₁) = Synth.generate ops s (Synth.newWith s b₂)
    ∧ Synth.generate ops s (Synth.new s)
      = Synth.generate ops s (Synth.newWith s (numSamples s)) := by
  constructor
  · rw [generate_eq_finalArr ops s b₁ h₁, generate_eq_finalArr ops s b₂ h₂]
  · show Synth.generate ops s (Synth.newWith s 10240) = _
    rw [generate_eq_finalArr ops s 10240 (by norm_num),
      generate_eq_finalArr ops s (numSamples s) (numSamples_pos s)]

/-- Witness for `block_invariance`: block sizes 3 and 7 on `sampleSound`. -/
theorem block_invariance_witness :
    (0 : ℕ) < 3 ∧ (0 : ℕ) < 7 ∧
      Synth.generate qOps sampleSound (Synth.newWith sampleSound 3)
        = Synth.generate qOps sampleSound (Synth.newWith sampleSound 7) :=
  ⟨by norm_num, by norm_num,
    (block_invariance qOps sampleSound 3 7 (by norm_num) (by norm_num)).1⟩

/-- **C4**: for every parameter set, the output buffer allocated by
`Synth::new` has length exactly `max(1, ceil(sampleRate × duration))` with
`duration = attack + sustain + decay`; when the duration is `0` the buffer
has length 1 (construction and generation are total functions of the
parameter set in this embedding, so neither panics). -/
theorem synth_new_buffer_length (s : Sound α) :
    (Synth.new s).arr.length
      = max 1 (⌈s.sample_rate * (s.attack + s.sustain + s.decay)⌉.toNat)
    ∧ (s.attack + s.sustain + s.decay = 0 → (Synth.new s).arr.length = 1) := by
  have hbase : (Synth.new s).arr.length
      = max 1 (⌈s.sample_rate * (s.attack + s.sustain + s.decay)⌉.toNat) := by
    show (List.replicate (numSamples s) 0).length = _
    rw [List.length_replicate]
    rfl
  refine ⟨hbase, fun h => ?_⟩
  rw [hbase]
  show max 1 (⌈s.sample_rate * (s.attack + s.sustain + s.decay)⌉.toNat) = 1
  rw [h, mul_zero]
  simp

/-- Witness for `synth_new_buffer_length`: `sampleSound` (duration 0.3s at
44100 Hz gives 13230 samples) and the duration-zero sound (1 sample). -/
theorem synth_new_buffer_length_witness :
    (Synth.new sampleSound).arr.length = 13230 ∧
    zeroDurSound.attack + zeroDurSound.sustain + zeroDurSound.decay = 0 ∧
    (Synth.new zeroDurSound).arr.length = 1 :=
  ⟨by
    rw [(synth_new_buffer_length sampleSound).1]
    norm_num [sampleSound]
    decide,
   by norm_num [zeroDurSound, sampleSound],
   (synth_new_buffer_length zeroDurSound).2 (by norm_num [zeroDurSound, sampleSound])⟩

/-- **C10**: once `Synth::tick` has returned `true` (the cursor has reached
the end of the buffer), every further call to `tick` returns `true` and
changes nothing: the output buffer, the cursor, the block size and every
transformer's carried state are left exactly as they were. -/
theorem tick_after_done (ops : TransOps α) (s : Sound α) (st : Synth α)
    (h : (Synth.tick ops s st).2 = true) :
    Synth.tick ops s (Synth.tick ops s st).1 = ((Synth.tick ops s st).1, true) := by
  by_cases hd : st.arr.length ≤ st.start_sample
  · rw [tick_done ops s st hd]
    exact tick_done ops s st hd
  · have htick : Synth.tick ops s st
        = ({ arr := (runBlock ops s st.arr st.start_sample
              (min (st.start_sample + st.block_size) st.arr.length) st.ps).1,
             start_sample := min (st.start_sample + st.block_size) st.arr.length,
             block_size := st.block_size,
             ps := (runBlock ops s st.arr st.start_sample
              (min (st.start_sample + st.block_size) st.arr.length) st.ps).2 },
           decide (min (st.start_sample + st.block_size) st.arr.length
            ≥ st.arr.length)) := by
      simp only [Synth.tick]
      rw [if_neg (by omega)]
    rw [htick] at h ⊢
    have hmin : st.arr.length ≤ min (st.start_sample + st.block_size) st.arr.length :=
      of_decide_eq_true h
    apply tick_done
    show (runBlock ops s st.arr st.start_sample
      (min (st.start_sample + st.block_size) st.arr.length) st.ps).1.length
      ≤ min (st.start_sample + st.block_size) st.arr.length
    rw [runBlock_length ops s st.arr _ _ st.ps (min_le_right _ _)]
    exact hmin

/-- **C8**: each stage's no-op condition leaves every sample of the buffer
unchanged for every block `[a, b)`: Flanger with `flangerOffset = 0` and
`flangerOffsetSweep = 0` (no delay buffer is allocated); BitCrush with
`bitCrush = 0` and `bitCrushSweep = 0`; LowPass with both `lowPassCutoff`
and `lowPassCutoff + sweep ≥ Nyquist`; HighPass with both `highPassCutoff`
and `highPassCutoff + sweep ≤ 0`; Compress with `compression = 1`; Amplify
with `amplification = 100%`.  In each case the carried state is unchanged
as well. -/
theorem stage_noop_thresholds (ops : TransOps α) (s : Sound α) (arr : List α)
    (a b : ℕ) (prev : α) (hp2 : α × α) :
    (s.flanger_offset = 0 → s.flanger_offset_sweep = 0 →
      Flanger.run s arr a b (FlangerState.init s) = (arr, FlangerState.init s)) ∧
    (s.bit_crush = 0 → s.bit_crush_sweep = 0 → BitCrush.run ops s arr a b = arr) ∧
    (s.low_pass_cutoff ≥ s.sample_rate / 2 →
      s.low_pass_cutoff + s.low_pass_cutoff_sweep ≥ s.sample_rate / 2 →
      LowPass.run ops s arr a b prev = (arr, prev)) ∧
    (s.high_pass_cutoff ≤ 0 → s.high_pass_cutoff + s.high_pass_cutoff_sweep ≤ 0 →
      HighPass.run ops s arr a b hp2 = (arr, hp2)) ∧
    (s.compression = 1 → Compress.run ops s arr a b = arr) ∧
    (s.amplification = 100 → Amplify.run s arr a b = arr) := by
  refine ⟨?_, ?_, ?_, ?_, ?_, ?_⟩
  · intro h1 h2
    have hinit : FlangerState.init s = ⟨none, 0⟩ := by
      unfold FlangerState.init
      rw [if_neg (by simp [h1, h2])]
    rw [hinit]
    rfl
  · intro h1 h2
    unfold BitCrush.run
    rw [if_pos ⟨h1, h2⟩]
  · intro h1 h2
    unfold LowPass.run
    rw [if_pos ⟨h1, h2⟩]
  · intro h1 h2
    unfold HighPass.run
    rw [if_pos ⟨h1, h2⟩]
  · intro h1
    unfold Compress.run
    rw [if_pos h1]
  · intro h1
    unfold Amplify.run
    rw [if_pos (by rw [h1]; norm_num)]

/-- Witness for `stage_noop_thresholds`: `noopSound` satisfies all six no-op
conditions on a concrete two-sample buffer. -/
theorem stage_noop_thresholds_witness :
    (noopSound.flanger_offset = 0 ∧ noopSound.flanger_offset_sweep = 0 ∧
     noopSound.bit_crush = 0 ∧ noopSound.bit_crush_sweep = 0 ∧
     noopSound.low_pass_cutoff ≥ noopSound.sample_rate / 2 ∧
     noopSound.low_pass_cutoff + noopSound.low_pass_cutoff_sweep
       ≥ noopSound.sample_rate / 2 ∧
     noopSound.high_pass_cutoff ≤ 0 ∧
     noopSound.high_pass_cutoff + noopSound.high_pass_cutoff_sweep ≤ 0 ∧
     noopSound.compression = 1 ∧ noopSound.amplification = 100) ∧
    Flanger.run noopSound [(1 : ℚ)/2, -1/3] 0 2 (FlangerState.init noopSound)
      = ([(1 : ℚ)/2, -1/3], FlangerState.init noopSound) ∧
    BitCrush.run qOps noopSound [(1 : ℚ)/2, -1/3] 0 2 = [(1 : ℚ)/2, -1/3] ∧
    LowPass.run qOps noopSound [(1 : ℚ)/2, -1/3] 0 2 0 = ([(1 : ℚ)/2, -1/3], 0) ∧
    HighPass.run qOps noopSound [(1 : ℚ)/2, -1/3] 0 2 (0, 0)
      = ([(1 : ℚ)/2, -1/3], (0, 0)) ∧
    Compress.run qOps noopSound [(1 : ℚ)/2, -1/3] 0 2 = [(1 : ℚ)/2, -1/3] ∧
    Amplify.run noopSound [(1 : ℚ)/2, -1/3] 0 2 = [(1 : ℚ)/2, -1/3] := by
  have h := stage_noop_thresholds qOps noopSound [(1 : ℚ)/2, -1/3] 0 2 0 (0, 0)
  refine ⟨by norm_num [noopSound, sampleSound], ?_, ?_, ?_, ?_, ?_, ?_⟩
  · exact h.1 (by norm_num [noopSound, sampleSound]) (by norm_num [noopSound, sampleSound])
  · exact h.2.1 (by norm_num [noopSound, sampleSound]) (by norm_num [noopSound, sampleSound])
  · exact h.2.2.1 (by norm_num [noopSound, sampleSound]) (by norm_num [noopSound, sampleSound])
  · exact h.2.2.2.1 (by norm_num [noopSound, sampleSound]) (by norm_num [noopSound, sampleSound])
  · exact h.2.2.2.2.1 (by norm_num [noopSound, sampleSound])
  · exact h.2.2.2.2.2 (by norm_num [noopSound, sampleSound])

/-! ### Scenario B: harmonics = 0 -/

theorem rustFract_lt_one (z : α) : rustFract z < 1 := by
  unfold rustFract
  by_cases h : z < 0
  · rw [if_pos h]
    have : (⌊-z⌋ : α) ≤ -z := Int.floor_le _
    linarith
  · rw [if_neg h]
    have := Int.fract_lt_one z
    unfold Int.fract at this
    linarith

theorem neg_one_lt_rustFract (z : α) : -1 < rustFract z := by
  unfold rustFract
  by_cases h : z < 0
  · rw [if_pos h]
    have : -z - 1 < (⌊-z⌋ : α) := Int.sub_one_lt_floor _
    linarith
  · rw [if_neg h]
    have := Int.fract_nonneg z
    unfold Int.fract at this
    linarith

theorem rustFract_idem (z : α) : rustFract (rustFract z) = rustFract z := by
  by_cases h : rustFract z < 0
  · have h1 : -1 < rustFract z := neg_one_lt_rustFract z
    rw [rustFract, if_pos h]
    have hz : ⌊-rustFract z⌋ = 0 := Int.floor_eq_zero_iff.mpr ⟨by linarith, by linarith⟩
    rw [hz]
    push_cast
    ring
  · push_neg at h
    rw [rustFract_of_nonneg h,
      Int.fract_eq_self.mpr ⟨h, rustFract_lt_one z⟩]

theorem genHarmonicsLoop_length (ops : TransOps α) (s : Sound α) (ph t : α) :
    ∀ (os : List (OscState α)) (k : ℕ) (acc amp : α),
      ((genHarmonicsLoop ops s ph t k acc amp os).2).length = os.length := by
  intro os
  induction os with
  | nil => intro k acc amp; rfl
  | cons o rest ih =>
    intro k acc amp
    show ((genHarmonicsLoop ops s ph t k acc amp (o :: rest)).2).length = _
    simp only [genHarmonicsLoop]
    rw [List.length_cons, ih]
    rfl

theorem runSteps_congr_f_inv {σ : Type} (P : σ → Prop) {f f' : ℕ → α → σ → α × σ}
    (hpres : ∀ i v st, P st → P (f i v st).2)
    (hf : ∀ i v st, P st → f i v st = f' i v st) (e : ℕ) :
    ∀ s arr st, P st → runSteps f s e arr st = runSteps f' s e arr st := by
  have H : ∀ n s arr st, e - s ≤ n → P st →
      runSteps f s e arr st = runSteps f' s e arr st := by
    intro n
    induction n with
    | zero =>
      intro s arr st hn _
      rw [runSteps_stop (by omega), runSteps_stop (by omega)]
    | succ n ih =>
      intro s arr st hn hP
      by_cases hlt : s < e
      · rw [runSteps_eq f, runSteps_eq f', if_pos hlt, if_pos hlt, hf _ _ _ hP]
        have hP' : P (f' s (arr.getD s 0) st).2 := by
          rw [← hf _ _ _ hP]
          exact hpres _ _ _ hP
        exact ih (s + 1) _ _ (by omega) hP'
      · rw [runSteps_stop hlt, runSteps_stop hlt]
  intro s arr st hP
  exact H (e - s) s arr st le_rfl hP

theorem megaStep_oscLen (ops : TransOps α) (s : Sound α) (n i : ℕ) (v : α)
    (big : BigState α) :
    ((megaStep ops s n i v big).2.1.1.1.1.1.1.1.oscillators).length
      = (big.1.1.1.1.1.1.1.oscillators).length := by
  have h : (megaStep ops s n i v big).2.1.1.1.1.1.1.1
      = (genStep ops s big.1.1.1.1.1.1.1 i).2 := rfl
  rw [h]
  show ((genHarmonicsLoop ops s _ _ 0 0 _ big.1.1.1.1.1.1.1.oscillators).2).length = _
  rw [genHarmonicsLoop_length]

theorem fuseSteps_congr {σ τ : Type} {f f' : ℕ → α → σ → α × σ}
    {g g' : ℕ → α → τ → α × τ} (i : ℕ) (v : α) (st : σ × τ)
    (hf : f i v st.1 = f' i v st.1) (hg : ∀ w, g i w st.2 = g' i w st.2) :
    fuseSteps f g i v st = fuseSteps f' g' i v st := by
  simp only [fuseSteps]
  rw [hf, hg]

theorem oscGet_falloff (ops : TransOps α) (s : Sound α) (x : α) (o : OscState α)
    (hp t : α) :
    OscState.get ops { s with harmonics_falloff := x } o hp t
      = OscState.get ops s o hp t := by
  cases o <;> rfl

theorem genStep_falloff (ops : TransOps α) (s : Sound α) (x : α) (i : ℕ)
    (o : OscState α) (fha ph : α) :
    genStep ops { s with harmonics_falloff := x } ⟨[o], fha, ph⟩ i
      = genStep ops s ⟨[o], fha, ph⟩ i := by
  have hfr : ∀ t : α, Sound.frequency_at ops { s with harmonics_falloff := x } t
      = Sound.frequency_at ops s t := fun t => rfl
  have hsr : ({ s with harmonics_falloff := x }).sample_rate = s.sample_rate := rfl
  have hloop : ∀ phase time : α,
      genHarmonicsLoop ops { s with harmonics_falloff := x } phase time 0 0 fha [o]
        = genHarmonicsLoop ops s phase time 0 0 fha [o] := by
    intro phase time
    simp only [genHarmonicsLoop, oscGet_falloff]
  simp only [genStep, hfr, hsr, hloop]

theorem megaStep_falloff (ops : TransOps α) (s : Sound α) (x : α) (n : ℕ)
    (i : ℕ) (v : α) (big : BigState α)
    (hlen1 : (big.1.1.1.1.1.1.1.oscillators).length = 1) :
    megaStep ops { s with harmonics_falloff := x } n i v big
      = megaStep ops s n i v big := by
  obtain ⟨⟨⟨⟨⟨⟨⟨g, u1⟩, fl⟩, u2⟩, lp⟩, hp⟩, u3⟩, m⟩ := big
  obtain ⟨os, fha, ph⟩ := g
  simp only at hlen1
  obtain ⟨o, ho⟩ : ∃ o, os = [o] := by
    cases os with
    | nil => simp at hlen1
    | cons o t =>
      cases t with
      | nil => exact ⟨o, rfl⟩
      | cons _ _ => simp at hlen1
  subst ho
  show fuseSteps _ (effNormAccStep { s with harmonics_falloff := x }) i v _
    = fuseSteps _ (effNormAccStep s) i v _
  refine fuseSteps_congr i v _ ?_ (fun w => rfl)
  refine fuseSteps_congr i v _ ?_ (fun w => rfl)
  refine fuseSteps_congr i v _ ?_ (fun w => rfl)
  refine fuseSteps_congr i v _ ?_ (fun w => rfl)
  refine fuseSteps_congr i v _ ?_ (fun w => rfl)
  refine fuseSteps_congr i v _ ?_ (fun w => rfl)
  refine fuseSteps_congr i v _ ?_ (fun w => rfl)
  exact genStep_falloff ops s x i o fha ph

theorem genInit_falloff (s : Sound α) (x : α) (hh : s.harmonics = 0) :
    GenState.init { s with harmonics_falloff := x } = GenState.init s := by
  have hden : ∀ y : α, (genAmpAcc y (0 + 1)).2 = 0 + 1 := fun y => rfl
  show GenState.mk (List.replicate (s.harmonics + 1) (OscState.init s))
      (1 / (genAmpAcc x (s.harmonics + 1)).2) 0
    = GenState.mk (List.replicate (s.harmonics + 1) (OscState.init s))
      (1 / (genAmpAcc s.harmonics_falloff (s.harmonics + 1)).2) 0
  rw [hh, hden, hden]

theorem pipeInit_falloff (s : Sound α) (x : α) (hh : s.harmonics = 0) :
    PipeState.init { s with harmonics_falloff := x } = PipeState.init s := by
  show PipeState.mk (GenState.init { s with harmonics_falloff := x })
      (FlangerState.init s) 0 0 0 0
    = PipeState.mk (GenState.init s) (FlangerState.init s) 0 0 0 0
  rw [genInit_falloff s x hh]

theorem canonicalRun_falloff (ops : TransOps α) (s : Sound α) (x : α) (k : ℕ)
    (hh : s.harmonics = 0) :
    canonicalRun ops { s with harmonics_falloff := x } k = canonicalRun ops s k := by
  unfold canonicalRun
  show runSteps (megaStep ops { s with harmonics_falloff := x } (numSamples s)) 0 k
      (arr0 s) (bigOf (PipeState.init { s with harmonics_falloff := x })) = _
  rw [pipeInit_falloff s x hh]
  apply runSteps_congr_f_inv (P := fun big => (big.1.1.1.1.1.1.1.oscillators).length = 1)
  · intro i v st hP
    rw [megaStep_oscLen]
    exact hP
  · intro i v st hP
    exact megaStep_falloff ops s x _ i v st hP
  · show (List.replicate (s.harmonics + 1) (OscState.init s)).length = 1
    rw [List.length_replicate, hh]

theorem finalArr_falloff (ops : TransOps α) (s : Sound α) (x : α)
    (hh : s.harmonics = 0) :
    finalArr ops { s with harmonics_falloff := x } = finalArr ops s := by
  unfold finalArr normFactor finalMax
  show (canonicalRun ops { s with harmonics_falloff := x } (numSamples s)).1.map
      (fun v => v * (if s.normalization = true then
        1 / (canonicalRun ops { s with harmonics_falloff := x } (numSamples s)).2.2 else 1)
        * (s.amplification / 100)) = _
  rw [canonicalRun_falloff ops s x _ hh]

/-- **C9**: with `harmonics = 0` the generated output is independent of the
`harmonicsFalloff` parameter — two runs identical except for the falloff
produce exactly equal output buffers — and the Generator degenerates to the
single-fundamental-oscillator baseline: its state is one oscillator with
`first_harmonic_amp = 1`, and its per-sample step computes exactly the
baseline (one term of amplitude 1 at the fundamental phase). -/
theorem harmonics_zero_falloff_independence (ops : TransOps α) (s : Sound α) (x : α)
    (b : ℕ) (hb : 0 < b) (hh : s.harmonics = 0) :
    Synth.generate ops { s with harmonics_falloff := x }
        (Synth.newWith { s with harmonics_falloff := x } b)
      = Synth.generate ops s (Synth.newWith s b)
    ∧ GenState.init s = ⟨[OscState.init s], 1, 0⟩
    ∧ (∀ (o : OscState α) (ph : α) (i : ℕ),
        genStep ops s ⟨[o], 1, ph⟩ i
          = ((baselineGenStep ops s o ph i).1,
             ⟨[(baselineGenStep ops s o ph i).2.1], 1,
              (baselineGenStep ops s o ph i).2.2⟩)) := by
  refine ⟨?_, ?_, ?_⟩
  · rw [generate_eq_finalArr ops _ b hb, generate_eq_finalArr ops s b hb,
      finalArr_falloff ops s x hh]
  · show GenState.mk (List.replicate (s.harmonics + 1) (OscState.init s))
        (1 / (genAmpAcc s.harmonics_falloff (s.harmonics + 1)).2) 0
      = GenState.mk [OscState.init s] 1 0
    rw [hh]
    have hden : (genAmpAcc s.harmonics_falloff (0 + 1)).2 = 0 + 1 := rfl
    rw [hden]
    norm_num
  · intro o ph i
    show ((genHarmonicsLoop ops s
        (rustFract (ph + s.frequency_at ops ((i : α) / s.sample_rate) / s.sample_rate))
        ((i : α) / s.sample_rate) 0 0 1 [o]).1,
      GenState.mk (genHarmonicsLoop ops s
          (rustFract (ph + s.frequency_at ops ((i : α) / s.sample_rate) / s.sample_rate))
          ((i : α) / s.sample_rate) 0 0 1 [o]).2 1
        (rustFract (ph + s.frequency_at ops ((i : α) / s.sample_rate) / s.sample_rate)))
      = ((baselineGenStep ops s o ph i).1,
         GenState.mk [(baselineGenStep ops s o ph i).2.1] 1
          (baselineGenStep ops s o ph i).2.2)
    simp only [genHarmonicsLoop, baselineGenStep]
    norm_num [rustFract_idem]

/-! ### Flanger: usize underflow of the delay-read index -/

/-- **C2**: the claim says processing every sample of an active Flanger is
total for every cursor position, including `cursor < offsetSamples`, with
the delayed value read at `(cursor − offsetSamples) mod bufferLength`.
The source computes `buffer_pos - offset_samples + buffer_length` in
`usize`; on a 10ms flanger offset at 44100Hz (`flangerSound`, 13230
samples, delay buffer of 4410 samples), the very first sample has cursor
`0` and `offsetSamples = 441` (already within the clamp bound `4409`), so
`buffer_pos - offset_samples` underflows: a debug build panics and the
subtraction is not total as claimed.  Only under release (wrapping)
semantics — modelled by `flangerIndexRaw` via `usizeSub` — does the double
wraparound land on the intended index `(0 + 4410 − 441) % 4410 = 3969`. -/
theorem flanger_offset_underflow :
    numSamples flangerSound = 13230 ∧
    (FlangerState.init flangerSound).buffer = some (List.replicate 4410 (0 : ℚ)) ∧
    (FlangerState.init flangerSound).buffer_pos = 0 ∧
    flangerOffsetSamples flangerSound 13230 0 = 441 ∧
    min (4410 - 1) (flangerOffsetSamples flangerSound 13230 0) = 441 ∧
    (FlangerState.init flangerSound).buffer_pos < 441 ∧
    flangerIndexRaw 0 441 4410 = (0 + 4410 - 441) % 4410 ∧
    flangerIndexRaw 0 441 4410 = 3969 := by
  have hos : flangerOffsetSamples flangerSound 13230 0 = 441 := by
    norm_num [flangerOffsetSamples, rustRound, flangerSound, sampleSound]
    decide
  have hidx : flangerIndexRaw 0 441 4410 = 3969 := by
    norm_num [flangerIndexRaw, usizeSub, U64]
  refine ⟨?_, ?_, rfl, hos, ?_, ?_, ?_, hidx⟩
  · norm_num [numSamples, Sound.duration, flangerSound, sampleSound]
    decide
  · norm_num [FlangerState.init, flangerSound, sampleSound]
    decide
  · rw [hos]
    decide
  · show (0 : ℕ) < 441
    norm_num
  · rw [hidx]

/-! ### Normalize: zero buffer and peak value -/

theorem megaStep_max (ops : TransOps α) (s : Sound α) (n i : ℕ) (v : α)
    (big : BigState α) :
    (megaStep ops s n i v big).2.2
      = (if s.normalization = true then max big.2 |(megaStep ops s n i v big).1|
         else big.2) := rfl

theorem megaRun_max (ops : TransOps α) (s : Sound α) (n e : ℕ)
    (hnorm : s.normalization = true) :
    ∀ a arr (big : BigState α), e ≤ arr.length →
      (runSteps (megaStep ops s n) a e arr big).2.2
        = normMaxAcc (runSteps (megaStep ops s n) a e arr big).1 a e big.2 := by
  have H : ∀ m a arr big, e - a ≤ m → e ≤ arr.length →
      (runSteps (megaStep ops s n) a e arr big).2.2
        = normMaxAcc (runSteps (megaStep ops s n) a e arr big).1 a e big.2 := by
    intro m
    induction m with
    | zero =>
      intro a arr big hm _
      rw [runSteps_stop (by omega), normMaxAcc, dif_neg (by omega)]
    | succ m ih =>
      intro a arr big hm hlen
      by_cases hlt : a < e
      · rw [runSteps_eq (megaStep ops s n) a e arr, if_pos hlt]
        rw [ih (a + 1) _ _ (by omega) (by rw [List.length_set]; exact hlen)]
        have hval : (runSteps (megaStep ops s n) (a + 1) e
            (arr.set a (megaStep ops s n a (arr.getD a 0) big).1)
            (megaStep ops s n a (arr.getD a 0) big).2).1.getD a 0
            = (megaStep ops s n a (arr.getD a 0) big).1 := by
          rw [List.getD_eq_getElem?_getD, runSteps_frame _ _ _ _ _ _ (Or.inl (by omega)),
            List.getElem?_set_self (by omega)]
          rfl
        rw [megaStep_max, if_pos hnorm]
        conv_rhs => rw [normMaxAcc]
        rw [dif_pos hlt, hval]
      · rw [runSteps_stop hlt, normMaxAcc, dif_neg hlt]
  intro a arr big hlen
  exact H (e - a) a arr big le_rfl hlen

theorem normMaxAcc_init_le (arr : List α) (e : ℕ) :
    ∀ a (m : α), m ≤ normMaxAcc arr a e m := by
  have H : ∀ t a m, e - a ≤ t → m ≤ normMaxAcc arr a e m := by
    intro t
    induction t with
    | zero =>
      intro a m ht
      rw [normMaxAcc, dif_neg (by omega)]
    | succ t ih =>
      intro a m ht
      by_cases hlt : a < e
      · rw [normMaxAcc, dif_pos hlt]
        exact le_trans (le_max_left _ _) (ih (a + 1) _ (by omega))
      · rw [normMaxAcc, dif_neg hlt]
  intro a m
  exact H (e - a) a m le_rfl

theorem normMaxAcc_ge (arr : List α) (e : ℕ) :
    ∀ a (m : α) (j : ℕ), a ≤ j → j < e → |arr.getD j 0| ≤ normMaxAcc arr a e m := by
  have H : ∀ t a m j, e - a ≤ t → a ≤ j → j < e →
      |arr.getD j 0| ≤ normMaxAcc arr a e m := by
    intro t
    induction t with
    | zero =>
      intro a m j ht h1 h2
      omega
    | succ t ih =>
      intro a m j ht h1 h2
      have hlt : a < e := by omega
      rw [normMaxAcc, dif_pos hlt]
      by_cases hja : j = a
      · subst hja
        exact le_trans (le_max_right _ _) (normMaxAcc_init_le arr e (j + 1) _)
      · exact ih (a + 1) _ j (by omega) (by omega) h2
  intro a m j h1 h2
  exact H (e - a) a m j le_rfl h1 h2

theorem normMaxAcc_le (arr : List α) (e : ℕ) :
    ∀ a (m c : α), m ≤ c → (∀ j, a ≤ j → j < e → |arr.getD j 0| ≤ c) →
      normMaxAcc arr a e m ≤ c := by
  have H : ∀ t a m c, e - a ≤ t → m ≤ c →
      (∀ j, a ≤ j → j < e → |arr.getD j 0| ≤ c) → normMaxAcc arr a e m ≤ c := by
    intro t
    induction t with
    | zero =>
      intro a m c ht hm _
      rw [normMaxAcc, dif_neg (by omega)]
      exact hm
    | succ t ih =>
      intro a m c ht hm hj
      by_cases hlt : a < e
      · rw [normMaxAcc, dif_pos hlt]
        exact ih (a + 1) _ c (by omega) (max_le hm (hj a le_rfl hlt))
          (fun j h1 h2 => hj j (by omega) h2)
      · rw [normMaxAcc, dif_neg hlt]
        exact hm
  intro a m c hm hj
  exact H (e - a) a m c le_rfl hm hj

theorem normMaxAcc_attained (arr : List α) (e : ℕ) :
    ∀ a (m : α), normMaxAcc arr a e m = m ∨
      ∃ j, a ≤ j ∧ j < e ∧ normMaxAcc arr a e m = |arr.getD j 0| := by
  have H : ∀ t a m, e - a ≤ t → (normMaxAcc arr a e m = m ∨
      ∃ j, a ≤ j ∧ j < e ∧ normMaxAcc arr a e m = |arr.getD j 0|) := by
    intro t
    induction t with
    | zero =>
      intro a m ht
      left
      rw [normMaxAcc, dif_neg (by omega)]
    | succ t ih =>
      intro a m ht
      by_cases hlt : a < e
      · rw [normMaxAcc, dif_pos hlt]
        rcases ih (a + 1) (max m |arr.getD a 0|) (by omega) with h | ⟨j, h1, h2, h3⟩
        · rw [h]
          rcases max_choice m |arr.getD a 0| with hc | hc
          · left
            exact hc
          · right
            exact ⟨a, le_rfl, hlt, hc⟩
        · right
          exact ⟨j, by omega, h2, h3⟩
      · left
        rw [normMaxAcc, dif_neg hlt]
  intro a m
  exact H (e - a) a m le_rfl

theorem foldl_maxAbs_init_le :
    ∀ (l : List α) (m : α), m ≤ l.foldl (fun m v => max m |v|) m := by
  intro l
  induction l with
  | nil => intro m; exact le_rfl
  | cons v t ih =>
    intro m
    exact le_trans (le_max_left _ _) (ih (max m |v|))

theorem foldl_maxAbs_ge :
    ∀ (l : List α) (m v : α), v ∈ l → |v| ≤ l.foldl (fun m v => max m |v|) m := by
  intro l
  induction l with
  | nil => intro m v hv; exact absurd hv (List.not_mem_nil v)
  | cons w t ih =>
    intro m v hv
    rcases List.mem_cons.mp hv with h | h
    · subst h
      exact le_trans (le_max_right _ _) (foldl_maxAbs_init_le t _)
    · exact ih _ v h

theorem foldl_maxAbs_le :
    ∀ (l : List α) (m c : α), m ≤ c → (∀ v ∈ l, |v| ≤ c) →
      l.foldl (fun m v => max m |v|) m ≤ c := by
  intro l
  induction l with
  | nil => intro m c hm _; exact hm
  | cons w t ih =>
    intro m c hm hv
    exact ih _ c (max_le hm (hv w (List.mem_cons_self w t)))
      (fun v h => hv v (List.mem_cons_of_mem w h))

theorem finalMax_eq_normMaxAcc (ops : TransOps α) (s : Sound α)
    (hnorm : s.normalization = true) :
    finalMax ops s = normMaxAcc (canonicalRun ops s (numSamples s)).1 0 (numSamples s) 0 := by
  unfold finalMax canonicalRun
  rw [megaRun_max ops s (numSamples s) (numSamples s) hnorm 0 (arr0 s) _
    (by rw [arr0, List.length_replicate])]
  rfl

/-- **C3**: with normalization enabled, (a) if every sample of the fully
generated buffer is exactly zero before Normalize's final rescale, the
stage divides by a zero running maximum (`finalMax = 0`) and — under the
IEEE-754 semantics of `sample * (1.0 / max)` modelled by `rescaleFV` — the
resulting samples are NaN, hence not finite; (b) if the buffer is not
all-zero, after the final block the maximum absolute sample value over the
whole buffer before Amplify equals exactly `1`. -/
theorem normalize_zero_and_peak (ops : TransOps α) (s : Sound α)
    (hnorm : s.normalization = true) :
    ((∀ j, j < numSamples s → (canonicalRun ops s (numSamples s)).1.getD j 0 = 0) →
      finalMax ops s = 0 ∧
      (∀ j, j < numSamples s →
        rescaleFV (FV.fin ((canonicalRun ops s (numSamples s)).1.getD j 0))
            (FV.fin (finalMax ops s)) = FV.nan ∧
        (rescaleFV (FV.fin ((canonicalRun ops s (numSamples s)).1.getD j 0))
            (FV.fin (finalMax ops s))).isFinite = false)) ∧
    ((∃ j, j < numSamples s ∧ (canonicalRun ops s (numSamples s)).1.getD j 0 ≠ 0) →
      listMaxAbs (preAmplifyArr ops s) = 1) := by
  have hMeq := finalMax_eq_normMaxAcc ops s hnorm
  have hlenC : (canonicalRun ops s (numSamples s)).1.length = numSamples s :=
    canonicalRun_length ops s (numSamples s)
  constructor
  · intro hz
    have hM0 : finalMax ops s = 0 := by
      rw [hMeq]
      apply le_antisymm
      · apply normMaxAcc_le _ _ _ _ _ le_rfl
        intro j h1 h2
        rw [hz j h2, abs_zero]
      · exact normMaxAcc_init_le _ _ _ _
    have hnan : rescaleFV (FV.fin (0 : α)) (FV.fin 0) = FV.nan := by
      simp [rescaleFV, FV.div, FV.mul]
    refine ⟨hM0, fun j hj => ?_⟩
    rw [hz j hj, hM0, hnan]
    exact ⟨rfl, rfl⟩
  · intro ⟨j₀, hj₀, hval⟩
    have hMpos : 0 < finalMax ops s := by
      rw [hMeq]
      exact lt_of_lt_of_le (abs_pos.mpr hval)
        (normMaxAcc_ge _ _ 0 0 j₀ (Nat.zero_le _) hj₀)
    have hMne : finalMax ops s ≠ 0 := ne_of_gt hMpos
    have hfac : normFactor ops s = 1 / finalMax ops s := by
      unfold normFactor
      rw [if_pos hnorm]
    have hinv_pos : 0 < 1 / finalMax ops s := by positivity
    have hbound : ∀ v ∈ (canonicalRun ops s (numSamples s)).1, |v| ≤ finalMax ops s := by
      intro v hv
      obtain ⟨i, hi, hvi⟩ := List.mem_iff_getElem.mp hv
      have : (canonicalRun ops s (numSamples s)).1.getD i 0 = v := by
        rw [List.getD_eq_getElem?_getD, List.getElem?_eq_getElem hi, hvi]
        rfl
      rw [← this, hMeq]
      exact normMaxAcc_ge _ _ 0 0 i (Nat.zero_le _) (by omega)
    apply le_antisymm
    · apply foldl_maxAbs_le _ _ _ zero_le_one
      intro v hv
      obtain ⟨w, hw, hweq⟩ := List.mem_map.mp hv
      rw [← hweq, hfac, abs_mul, abs_of_pos hinv_pos]
      calc |w| * (1 / finalMax ops s)
          ≤ finalMax ops s * (1 / finalMax ops s) := by
            apply mul_le_mul_of_nonneg_right (hbound w hw) (le_of_lt hinv_pos)
        _ = 1 := by
            field_simp
    · rcases normMaxAcc_attained (canonicalRun ops s (numSamples s)).1 (numSamples s) 0 0
        with hc | ⟨j, h1, h2, h3⟩
      · rw [hMeq, hc] at hMpos
        exact absurd hMpos (lt_irrefl 0)
      · have hjlen : j < (canonicalRun ops s (numSamples s)).1.length := by omega
        have hmem : (canonicalRun ops s (numSamples s)).1.getD j 0
            ∈ (canonicalRun ops s (numSamples s)).1 := by
          rw [List.getD_eq_getElem?_getD, List.getElem?_eq_getElem hjlen]
          exact List.getElem_mem hjlen
        have hmmem : (canonicalRun ops s (numSamples s)).1.getD j 0 * normFactor ops s
            ∈ preAmplifyArr ops s :=
          List.mem_map_of_mem (fun v => v * normFactor ops s) hmem
        have habs : |(canonicalRun ops s (numSamples s)).1.getD j 0 * normFactor ops s| = 1 := by
          rw [hfac, abs_mul, abs_of_pos hinv_pos, ← h3, ← hMeq]
          field_simp
        calc (1 : α) = |(canonicalRun ops s (numSamples s)).1.getD j 0 * normFactor ops s| :=
              habs.symm
          _ ≤ listMaxAbs (preAmplifyArr ops s) := foldl_maxAbs_ge _ _ _ hmmem

/-- Witness for `normalize_zero_and_peak`: the duration-zero sound has an
all-zero one-sample buffer (division by a zero maximum), and the two-sample
square-wave sound has non-zero samples with pre-Amplify peak exactly 1. -/
theorem normalize_zero_and_peak_witness :
    (zeroDurSound.normalization = true ∧
      (∀ j, j < numSamples zeroDurSound →
        (canonicalRun qOps zeroDurSound (numSamples zeroDurSound)).1.getD j 0 = 0) ∧
      finalMax qOps zeroDurSound = 0) ∧
    (squareSound.normalization = true ∧
      (canonicalRun qOps squareSound (numSamples squareSound)).1.getD 0 0 ≠ 0 ∧
      listMaxAbs (preAmplifyArr qOps squareSound) = 1) := by
  have hnz : numSamples zeroDurSound = 1 := by
    norm_num [numSamples, Sound.duration, zeroDurSound, sampleSound]
  have hcz : (canonicalRun qOps zeroDurSound (numSamples zeroDurSound)).1.getD 0 0 = 0 := by
    unfold canonicalRun arr0
    rw [hnz]
    rw [runSteps_eq, if_pos (by norm_num : (0 : ℕ) < 1), runSteps_stop (lt_irrefl 1)]
    norm_num [megaStep, fuseSteps, generatorStep, genStep, genHarmonicsLoop, genAmpAcc,
      effEnvStep, envStep, effFlangerStep, effBitCrushStep, effLowPassStep, effHighPassStep,
      effCompressStep, effNormAccStep, bigOf, PipeState.init, GenState.init, FlangerState.init,
      OscState.init, OscState.get, Sound.amplitude_at, Sound.frequency_at,
      Sound.effective_repeat_frequency, Sound.square_duty_at, Sound.duration, rustFract,
      qOps, zeroDurSound, sampleSound, natToF, max_def, min_def]
  have hz : ∀ j, j < numSamples zeroDurSound →
      (canonicalRun qOps zeroDurSound (numSamples zeroDurSound)).1.getD j 0 = 0 := by
    intro j hj
    rw [hnz] at hj
    have hj0 : j = 0 := by omega
    rw [hj0]
    exact hcz
  have hns : numSamples squareSound = 2 := by
    norm_num [numSamples, Sound.duration, squareSound, sampleSound]
    decide
  have hcs : (canonicalRun qOps squareSound (numSamples squareSound)).1.getD 0 0 = 1 := by
    unfold canonicalRun arr0
    rw [hns]
    rw [runSteps_eq, if_pos (by norm_num : (0 : ℕ) < 2)]
    rw [runSteps_eq, if_pos (by norm_num : (1 : ℕ) < 2), runSteps_stop (lt_irrefl 2)]
    norm_num [megaStep, fuseSteps, generatorStep, genStep, genHarmonicsLoop, genAmpAcc,
      effEnvStep, envStep, effFlangerStep, effBitCrushStep, effLowPassStep, effHighPassStep,
      effCompressStep, effNormAccStep, bigOf, PipeState.init, GenState.init, FlangerState.init,
      OscState.init, OscState.get, Sound.amplitude_at, Sound.frequency_at,
      Sound.effective_repeat_frequency, Sound.square_duty_at, Sound.duration, rustFract,
      qOps, squareSound, sampleSound, natToF, max_def, min_def]
  constructor
  · exact ⟨rfl, hz, ((normalize_zero_and_peak qOps zeroDurSound rfl).1 hz).1⟩
  · refine ⟨rfl, by rw [hcs]; exact one_ne_zero, ?_⟩
    exact (normalize_zero_and_peak qOps squareSound rfl).2
      ⟨0, by rw [hns]; norm_num, by rw [hcs]; exact one_ne_zero⟩

/-- Witness for `harmonics_zero_falloff_independence`: `sampleSound` has
`harmonics = 0`; changing the falloff to `1/3` leaves the output equal. -/
theorem harmonics_zero_falloff_independence_witness :
    (0 : ℕ) < 4 ∧ sampleSound.harmonics = 0 ∧
      Synth.generate qOps { sampleSound with harmonics_falloff := 1/3 }
          (Synth.newWith { sampleSound with harmonics_falloff := 1/3 } 4)
        = Synth.generate qOps sampleSound (Synth.newWith sampleSound 4) :=
  ⟨by norm_num, rfl,
    (harmonics_zero_falloff_independence qOps sampleSound (1/3) 4 (by norm_num) rfl).1⟩

/-- Witness for `tick_after_done`: an already-finished synth state. -/
theorem tick_after_done_witness :
    (Synth.tick qOps sampleSound
      ⟨([] : List ℚ), 0, 10240, PipeState.init sampleSound⟩).2 = true ∧
    Synth.tick qOps sampleSound
        (Synth.tick qOps sampleSound
          ⟨([] : List ℚ), 0, 10240, PipeState.init sampleSound⟩).1
      = ((Synth.tick qOps sampleSound
          ⟨([] : List ℚ), 0, 10240, PipeState.init sampleSound⟩).1, true) :=
  ⟨rfl, tick_after_done qOps sampleSound _ rfl⟩

end Jfxr
